import Mathlib

/-!
The `spl` library: `shared_spinlock` and `tsqueue`.

A shallow embedding of `include/spl/shared_spinlock.h` and `include/spl/tsqueue.h`.

* The lock is a `uint32_t` counter (`atomic_lock`) and an atomic flag (`write_pending`).
  The counter is a natural number; arithmetic on it is reduced modulo `2 ^ 32`.
* The operations `try_lock` .. `unlock` are executed without interference from other
  threads: the value a compare-and-swap compares against is the value loaded at the top of
  the same iteration. Execution by several threads is the interleaving of `world`.
* A spin loop runs under a *schedule*, a `List Bool` with one entry per loop iteration:
  the entry says whether a weak compare-and-swap attempted in that iteration fails
  spuriously. When the schedule is used up the loop is still spinning.
-/

namespace spl

/-- Result of running a spin loop for the iterations of a schedule: the call has returned
with a result, or it is still spinning in the given state. -/
inductive Outcome (σ ρ : Type) where
  | returned (r : ρ)
  | spinning (s : σ)
deriving DecidableEq

/-- The two atomics of `class shared_spinlock`. -/
structure shared_spinlock where
  atomic_lock : Nat
  write_pending : Bool
deriving DecidableEq

namespace shared_spinlock

/-- `std::numeric_limits<uint32_t>::max()`. -/
def WRITE_MODE : Nat := 2 ^ 32 - 1

/-- `READ_MAX = WRITE_MODE - 1`. -/
def READ_MAX : Nat := WRITE_MODE - 1

/-- `atomic_lock.compare_exchange_strong( expected, desired )`. -/
def compare_exchange_strong (s : shared_spinlock) (expected desired : Nat) :
    Bool × shared_spinlock :=
  if s.atomic_lock = expected then (true, { s with atomic_lock := desired }) else (false, s)

/-- `atomic_lock.compare_exchange_weak( expected, desired )`: as the strong form, except
that it may fail spuriously. -/
def compare_exchange_weak (spurious : Bool) (s : shared_spinlock) (expected desired : Nat) :
    Bool × shared_spinlock :=
  if spurious then (false, s) else s.compare_exchange_strong expected desired

/-- `write_pending.test()`. -/
def test (s : shared_spinlock) : Bool := s.write_pending

/-- `write_pending.test_and_set()`. -/
def test_and_set (s : shared_spinlock) : Bool × shared_spinlock :=
  (s.write_pending, { s with write_pending := true })

/-- `write_pending.clear()`. -/
def clear (s : shared_spinlock) : shared_spinlock :=
  { s with write_pending := false }

/-- `bool try_lock()`. -/
def try_lock (s : shared_spinlock) : Bool × shared_spinlock :=
  let was := s.atomic_lock
  if was = 0 then
    s.compare_exchange_strong was WRITE_MODE
  else
    (false, s)

/-- `bool try_lock_shared()`. -/
def try_lock_shared (s : shared_spinlock) : Bool × shared_spinlock :=
  let was := s.atomic_lock
  if was = 0 ∧ s.test = true then
    (false, s)
  else if was < READ_MAX then
    s.compare_exchange_strong was ((was + 1) % 2 ^ 32)
  else
    (false, s)

/-- `void lock_shared()`: one schedule entry per iteration of `while ( true )`. -/
def lock_shared : List Bool → shared_spinlock → Outcome shared_spinlock shared_spinlock
  | [], s => .spinning s
  | spurious :: sched, s =>
    let was := s.atomic_lock
    if was = 0 ∧ s.test = true then
      lock_shared sched s
    else if was < READ_MAX then
      match s.compare_exchange_weak spurious was ((was + 1) % 2 ^ 32) with
      | (true, s') => .returned s'
      | (false, s') => lock_shared sched s'
    else
      lock_shared sched s

/-- `void unlock_shared()`. -/
def unlock_shared : List Bool → shared_spinlock → Outcome shared_spinlock shared_spinlock
  | [], s => .spinning s
  | spurious :: sched, s =>
    let was := s.atomic_lock
    if was = 0 then
      .returned s
    else if was ≤ READ_MAX then
      match s.compare_exchange_weak spurious was ((was + 2 ^ 32 - 1) % 2 ^ 32) with
      | (true, s') => .returned s'
      | (false, s') => unlock_shared sched s'
    else
      unlock_shared sched s

/-- The `while ( true )` loop of `lock()`. -/
def lock_loop : List Bool → shared_spinlock → Outcome shared_spinlock shared_spinlock
  | [], s => .spinning s
  | spurious :: sched, s =>
    let was := s.atomic_lock
    if was = 0 then
      match s.compare_exchange_weak spurious was WRITE_MODE with
      | (true, s') => .returned s'
      | (false, s') => lock_loop sched s'
    else
      lock_loop sched s

/-- `void lock()`: `write_pending.test_and_set()`, then the loop. -/
def lock (sched : List Bool) (s : shared_spinlock) : Outcome shared_spinlock shared_spinlock :=
  lock_loop sched s.test_and_set.2

/-- The `while ( true )` loop of `unlock()`. -/
def unlock_loop : List Bool → shared_spinlock → Outcome shared_spinlock shared_spinlock
  | [], s => .spinning s
  | spurious :: sched, s =>
    let was := s.atomic_lock
    if was ≠ WRITE_MODE then
      .returned s
    else
      match s.compare_exchange_weak spurious was 0 with
      | (true, s') => .returned s'
      | (false, s') => unlock_loop sched s'

/-- `void unlock()`: `write_pending.clear()`, then the loop. -/
def unlock (sched : List Bool) (s : shared_spinlock) : Outcome shared_spinlock shared_spinlock :=
  unlock_loop sched s.clear

/-- The operations of the lock. -/
inductive op where
  | try_lock
  | try_lock_shared
  | lock_shared
  | unlock_shared
  | lock
  | unlock
deriving DecidableEq

/-- One completed call of an operation: its result (`true` for a blocking form that has
returned) and the state it leaves; `none` when the call is still spinning at the end of its
schedule. The non-blocking forms do not look at the schedule. -/
def call (o : op) (sched : List Bool) (s : shared_spinlock) : Option (Bool × shared_spinlock) :=
  match o with
  | .try_lock => some s.try_lock
  | .try_lock_shared => some s.try_lock_shared
  | .lock_shared =>
    match s.lock_shared sched with
    | .returned s' => some (true, s')
    | .spinning _ => none
  | .unlock_shared =>
    match s.unlock_shared sched with
    | .returned s' => some (true, s')
    | .spinning _ => none
  | .lock =>
    match s.lock sched with
    | .returned s' => some (true, s')
    | .spinning _ => none
  | .unlock =>
    match s.unlock sched with
    | .returned s' => some (true, s')
    | .spinning _ => none

/-- A sequence of calls, each run to completion before the next starts. -/
def exec : List (op × List Bool) → shared_spinlock → Option shared_spinlock
  | [], s => some s
  | (o, sched) :: rest, s =>
    match call o sched s with
    | some (_, s') => exec rest s'
    | none => none

/-- Who holds the lock: the number of exclusive holds and of shared holds that have been
acquired and not yet released, and whether the current exclusive hold was acquired by
`try_lock`. -/
structure holders where
  exclusive : Nat
  shared : Nat
  by_try_lock : Bool
deriving DecidableEq

/-- The book-keeping of one completed call; `none` for a release by a thread that does not
hold the lock in that mode. -/
def holders.update (h : holders) (o : op) (result : Bool) : Option holders :=
  match o with
  | .try_lock => some (if result then { h with exclusive := h.exclusive + 1, by_try_lock := true } else h)
  | .try_lock_shared => some (if result then { h with shared := h.shared + 1 } else h)
  | .lock_shared => some { h with shared := h.shared + 1 }
  | .unlock_shared => if 0 < h.shared then some { h with shared := h.shared - 1 } else none
  | .lock => some { h with exclusive := h.exclusive + 1, by_try_lock := false }
  | .unlock =>
    if 0 < h.exclusive then some { h with exclusive := h.exclusive - 1, by_try_lock := false }
    else none

/-- A sequence of completed calls in which releases are only made by holders. -/
def exec_held : List (op × List Bool) → shared_spinlock × holders →
    Option (shared_spinlock × holders)
  | [], t => some t
  | (o, sched) :: rest, t =>
    match call o sched t.1 with
    | some (result, s') =>
      match t.2.update o result with
      | some h' => exec_held rest (s', h')
      | none => none
    | none => none

/-! Interleaved execution. Every access to `atomic_lock` and `write_pending` in the source is
a sequentially consistent atomic operation, so an execution by several threads is an
interleaving of these accesses. A thread is between calls or inside a call, before one of
the atomic accesses of that call. -/

/-- Where a thread stands: between calls (holding nothing, or holding the lock in one mode
after a successful acquisition), or inside a call before its next atomic access, with the
value `was` it has loaded. -/
inductive pc where
  | idle
  | holds_exclusive
  | holds_shared
  | try_lock_load
  | try_lock_cas (was : Nat)
  | try_lock_shared_load
  | try_lock_shared_test (was : Nat)
  | try_lock_shared_cas (was : Nat)
  | lock_shared_load
  | lock_shared_test (was : Nat)
  | lock_shared_cas (was : Nat)
  | unlock_shared_load
  | unlock_shared_cas (was : Nat)
  | lock_set
  | lock_load
  | lock_cas (was : Nat)
  | unlock_clear
  | unlock_load
  | unlock_cas (was : Nat)
deriving DecidableEq

/-- One step of a thread on the lock `l`: the next atomic access of the call it is in, with
the branches that follow it; or, between calls, the start of the call `o`, where a thread
releases only what it holds. `none` when the thread cannot start `o`. -/
def advance (o : op) (spurious : Bool) (l : shared_spinlock) :
    pc → Option (shared_spinlock × pc)
  | .idle =>
    match o with
    | .try_lock => some (l, .try_lock_load)
    | .try_lock_shared => some (l, .try_lock_shared_load)
    | .lock_shared => some (l, .lock_shared_load)
    | .lock => some (l, .lock_set)
    | .unlock_shared => none
    | .unlock => none
  | .holds_exclusive => if o = .unlock then some (l, .unlock_clear) else none
  | .holds_shared => if o = .unlock_shared then some (l, .unlock_shared_load) else none
  | .try_lock_load => some (l, .try_lock_cas l.atomic_lock)
  | .try_lock_cas was =>
    if was = 0 then
      match l.compare_exchange_strong was WRITE_MODE with
      | (true, l') => some (l', .holds_exclusive)
      | (false, l') => some (l', .idle)
    else
      some (l, .idle)
  | .try_lock_shared_load => some (l, .try_lock_shared_test l.atomic_lock)
  | .try_lock_shared_test was =>
    if was = 0 ∧ l.test = true then some (l, .idle) else some (l, .try_lock_shared_cas was)
  | .try_lock_shared_cas was =>
    if was < READ_MAX then
      match l.compare_exchange_strong was ((was + 1) % 2 ^ 32) with
      | (true, l') => some (l', .holds_shared)
      | (false, l') => some (l', .idle)
    else
      some (l, .idle)
  | .lock_shared_load => some (l, .lock_shared_test l.atomic_lock)
  | .lock_shared_test was =>
    if was = 0 ∧ l.test = true then some (l, .lock_shared_load)
    else some (l, .lock_shared_cas was)
  | .lock_shared_cas was =>
    if was < READ_MAX then
      match l.compare_exchange_weak spurious was ((was + 1) % 2 ^ 32) with
      | (true, l') => some (l', .holds_shared)
      | (false, l') => some (l', .lock_shared_load)
    else
      some (l, .lock_shared_load)
  | .unlock_shared_load => some (l, .unlock_shared_cas l.atomic_lock)
  | .unlock_shared_cas was =>
    if was = 0 then
      some (l, .idle)
    else if was ≤ READ_MAX then
      match l.compare_exchange_weak spurious was ((was + 2 ^ 32 - 1) % 2 ^ 32) with
      | (true, l') => some (l', .idle)
      | (false, l') => some (l', .unlock_shared_load)
    else
      some (l, .unlock_shared_load)
  | .lock_set => some (l.test_and_set.2, .lock_load)
  | .lock_load => some (l, .lock_cas l.atomic_lock)
  | .lock_cas was =>
    if was = 0 then
      match l.compare_exchange_weak spurious was WRITE_MODE with
      | (true, l') => some (l', .holds_exclusive)
      | (false, l') => some (l', .lock_load)
    else
      some (l, .lock_load)
  | .unlock_clear => some (l.clear, .unlock_load)
  | .unlock_load => some (l, .unlock_cas l.atomic_lock)
  | .unlock_cas was =>
    if was ≠ WRITE_MODE then
      some (l, .idle)
    else
      match l.compare_exchange_weak spurious was 0 with
      | (true, l') => some (l', .idle)
      | (false, l') => some (l', .unlock_load)

/-- The thread holds the lock exclusively: from its successful exclusive acquisition until its
`unlock()` has returned. -/
def pc.exclusive : pc → Bool
  | .holds_exclusive => true
  | .unlock_clear => true
  | .unlock_load => true
  | .unlock_cas _ => true
  | _ => false

/-- The thread holds the lock shared: from its successful shared acquisition until its
`unlock_shared()` has returned. -/
def pc.shared : pc → Bool
  | .holds_shared => true
  | .unlock_shared_load => true
  | .unlock_shared_cas _ => true
  | _ => false

/-- What a holder inside its release has loaded: the writer value in `unlock()`, a non-zero
value in `unlock_shared()`. -/
def pc.ok : pc → Prop
  | .unlock_cas was => was = WRITE_MODE
  | .unlock_shared_cas was => was ≠ 0
  | _ => True

/-- The thread is a writer with its intent announced by program position: inside `lock()` past
the `test_and_set`, holding the lock exclusively, or in `unlock()` before the `clear`. -/
def pc.writer : pc → Bool
  | .lock_load => true
  | .lock_cas _ => true
  | .holds_exclusive => true
  | .unlock_clear => true
  | _ => false

/-- The thread is spinning in `lock()` past the `test_and_set`. -/
def pc.waiting : pc → Bool
  | .lock_load => true
  | .lock_cas _ => true
  | _ => false

/-- The thread is inside `try_lock()`. -/
def pc.trying : pc → Bool
  | .try_lock_load => true
  | .try_lock_cas _ => true
  | _ => false

/-- The lock and the threads that use it. -/
structure world where
  lock : shared_spinlock
  threads : List pc
deriving DecidableEq

/-- One scheduling decision: which thread takes its next step, the call it starts if it is
between calls, and whether a weak compare-and-swap in that step fails spuriously. -/
structure event where
  thread : Nat
  start : op
  spurious : Bool
deriving DecidableEq

namespace world

/-- The lock unlocked and `n` threads that hold nothing. -/
def initial (n : Nat) : world := ⟨⟨0, false⟩, List.replicate n .idle⟩

/-- The thread of the event takes its step. -/
def step (w : world) (e : event) : Option world :=
  match w.threads[e.thread]? with
  | none => none
  | some p =>
    match advance e.start e.spurious w.lock p with
    | none => none
    | some (l', p') => some ⟨l', w.threads.set e.thread p'⟩

/-- An interleaving: the steps of the threads in the order of the events. -/
def interleave : List event → world → Option world
  | [], w => some w
  | e :: rest, w =>
    match w.step e with
    | none => none
    | some w' => interleave rest w'

/-- The number of threads that hold the lock exclusively. -/
def exclusive_holders (w : world) : Nat := w.threads.countP pc.exclusive

/-- The number of threads that hold the lock shared. -/
def shared_holders (w : world) : Nat := w.threads.countP pc.shared

/-- The counter agrees with the holders: no exclusive holder and the counter is the number of
shared holders, at most `READ_MAX`; or one exclusive holder, no shared holder and the
counter is `WRITE_MODE`. -/
def agrees (counter holders_exclusive holders_shared : Nat) : Prop :=
  (holders_exclusive = 0 ∧ counter = holders_shared ∧ holders_shared ≤ READ_MAX) ∨
    (holders_exclusive = 1 ∧ holders_shared = 0 ∧ counter = WRITE_MODE)

/-- The invariant of interleaved execution: the counter agrees with the holders, and every
thread inside a release has loaded a value consistent with its hold. -/
def consistent (w : world) : Prop :=
  agrees w.lock.atomic_lock w.exclusive_holders w.shared_holders ∧ ∀ p ∈ w.threads, p.ok

/-- Book-keeping of writer intent along an interleaving, one entry per thread: the entry is
`true` when the `test_and_set` of a `lock()` call of the thread has run and no `unlock()`, of
any thread, has run its `clear` since. This is its update by the step of `e` from `w`. -/
def announce (w : world) (e : event) (announced : List Bool) : List Bool :=
  match w.threads[e.thread]? with
  | some .lock_set => announced.set e.thread true
  | some .unlock_clear => announced.map (fun _ => false)
  | _ => announced

/-- An interleaving together with the book-keeping of writer intent. -/
def interleave_announced : List event → world × List Bool → Option (world × List Bool)
  | [], t => some t
  | e :: rest, t =>
    match t.1.step e with
    | none => none
    | some w' => interleave_announced rest (w', announce t.1 e t.2)

/-- The step of `e` from `w` does not disturb writer intent: it does not start a `try_lock`,
and if it is the `clear` of an `unlock()`, no thread is spinning in `lock()` past its
`test_and_set`. -/
def undisturbed_step (w : world) (e : event) : Bool :=
  match w.threads[e.thread]? with
  | some .idle => decide (e.start ≠ .try_lock)
  | some .unlock_clear => w.threads.all (fun p => !p.waiting)
  | _ => true

/-- No step of the interleaving disturbs writer intent. -/
def undisturbed : List event → world → Bool
  | [], _ => true
  | e :: rest, w =>
    undisturbed_step w e &&
      match w.step e with
      | none => true
      | some w' => undisturbed rest w'

/-- The book-keeping is sound: a thread with the entry `true` is a writer by position, and the
flag is set. -/
def intent_kept (w : world) (announced : List Bool) : Prop :=
  announced.length = w.threads.length ∧
    ∀ i : Nat, announced[i]? = some true →
      w.lock.write_pending = true ∧ ∃ p : pc, w.threads[i]? = some p ∧ p.writer = true

/-- In an undisturbed interleaving every writer by position has the entry `true`, and no
thread is inside `try_lock`. -/
def intent_complete (w : world) (announced : List Bool) : Prop :=
  (∀ (i : Nat) (p : pc), w.threads[i]? = some p → p.writer = true →
      announced[i]? = some true) ∧
    ∀ p ∈ w.threads, p.trying = false

end world

end shared_spinlock

/-- `std::is_trivially_destructible_v<T>` for the element type. -/
class element (α : Type) where
  is_trivially_destructible_v : Bool

/-- An element type like `int` is trivially destructible. -/
instance : element Nat := ⟨true⟩

/-- The spurious-failure schedules of the two spin loops a scoped guard runs: the one that
acquires on construction and the one that releases on destruction. -/
structure schedule where
  acquire : List Bool
  release : List Bool
deriving DecidableEq

/-- Some attempt of either loop does not fail spuriously. -/
def schedule.fair (g : schedule) : Prop := false ∈ g.acquire ∧ false ∈ g.release

instance (g : schedule) : Decidable g.fair := by
  unfold schedule.fair
  infer_instance

/-- The data members of `class tsqueue<T>`. The buffer `storage` is a list of slots, one per
allocated element: `some v` is a live element, `none` is storage that holds no element.
`std::size_t` values are natural numbers: a buffer of `storage_capacity` elements exists in
memory, so `storage_size + 1` does not wrap. -/
structure tsqueue (α : Type) where
  spinlock : shared_spinlock
  storage : List (Option α)
  storage_capacity : Nat
  storage_size : Nat
deriving DecidableEq

namespace tsqueue

variable {α β : Type}

/-- The default member initialisers: unlocked lock, null storage, zero capacity and size. -/
def init : tsqueue α := ⟨⟨0, false⟩, [], 0, 0⟩

/-- Modelled from the spec: the exclusive guard `spl::scoped_lock` of scoped_lock.h, which is
not among the sources. Its construction blocks until `lock()` succeeds and its destruction,
on every exit path of the guarded body, calls `unlock()` exactly once. -/
def scoped_lock (g : schedule) (q : tsqueue α) (body : tsqueue α → tsqueue α × β) :
    Outcome (tsqueue α) (tsqueue α × β) :=
  match q.spinlock.lock g.acquire with
  | .spinning l => .spinning { q with spinlock := l }
  | .returned l =>
    let r := body { q with spinlock := l }
    match r.1.spinlock.unlock g.release with
    | .spinning l' => .spinning { r.1 with spinlock := l' }
    | .returned l' => .returned ({ r.1 with spinlock := l' }, r.2)

/-- Modelled from the spec: the shared guard `spl::scoped_shared_lock` of scoped_lock.h, which
is not among the sources: the same pairing with `lock_shared()` and `unlock_shared()`. -/
def scoped_shared_lock (g : schedule) (q : tsqueue α) (body : tsqueue α → tsqueue α × β) :
    Outcome (tsqueue α) (tsqueue α × β) :=
  match q.spinlock.lock_shared g.acquire with
  | .spinning l => .spinning { q with spinlock := l }
  | .returned l =>
    let r := body { q with spinlock := l }
    match r.1.spinlock.unlock_shared g.release with
    | .spinning l' => .spinning { r.1 with spinlock := l' }
    | .returned l' => .returned ({ r.1 with spinlock := l' }, r.2)

/-- The loop of `destroy`: `for ( ; first != last; ++first ) first->~T();`. -/
def destroy_loop : Nat → Nat → List (Option α) → List (Option α)
  | 0, _, buf => buf
  | n + 1, first, buf => destroy_loop n (first + 1) (buf.set first none)

/-- `destroy( first, last )` on the slots `[first, last)` of a buffer; nothing is done for a
trivially destructible element type. -/
def destroy [element α] (buf : List (Option α)) (first last : Nat) : List (Option α) :=
  if element.is_trivially_destructible_v α then buf else destroy_loop (last - first) first buf

/-- `destroy_at( object )`, the private member. -/
def destroy_at [element α] (buf : List (Option α)) (object : Nat) : List (Option α) :=
  if element.is_trivially_destructible_v α then buf else buf.set object none

/-- The loop of `uninitialized_move`:
`for ( ; first != last; ++first, ++dest ) new ( dest ) T( std::move( *first ) );`. -/
def uninitialized_move_loop (src : List (Option α)) :
    Nat → Nat → Nat → List (Option α) → List (Option α)
  | 0, _, _, buf => buf
  | n + 1, first, dest, buf =>
    uninitialized_move_loop src n (first + 1) (dest + 1) (buf.set dest (src.getD first none))

/-- `uninitialized_move( first, last, dest )` from the slots `[first, last)` of `src` to the
slots of `buf` starting at `dest`; the result is the destination buffer. -/
def uninitialized_move (src : List (Option α)) (first last : Nat) (buf : List (Option α))
    (dest : Nat) : List (Option α) :=
  uninitialized_move_loop src (last - first) first dest buf

/-- `std::size_t was_size()`. -/
def was_size (g : schedule) (q : tsqueue α) : Outcome (tsqueue α) (tsqueue α × Nat) :=
  scoped_shared_lock g q (fun q => (q, q.storage_size))

/-- `std::size_t was_capacity()`. -/
def was_capacity (g : schedule) (q : tsqueue α) : Outcome (tsqueue α) (tsqueue α × Nat) :=
  scoped_shared_lock g q (fun q => (q, q.storage_capacity))

/-- `bool was_empty()`. -/
def was_empty (g : schedule) (q : tsqueue α) : Outcome (tsqueue α) (tsqueue α × Bool) :=
  match was_size g q with
  | .spinning q' => .spinning q'
  | .returned (q', n) => .returned (q', decide (n = 0))

/-- `void push( Args&&... args )`, with `v` the element the arguments construct (the default
element in the form without arguments). The old buffer is destroyed and released when the
storage grows, so the state keeps only the new one. -/
def push [element α] (g : schedule) (q : tsqueue α) (v : α) :
    Outcome (tsqueue α) (tsqueue α × Unit) :=
  scoped_lock g q (fun q =>
    let new_size := q.storage_size + 1
    let q1 :=
      if new_size > q.storage_capacity then
        let tmp := List.replicate new_size (none : Option α)
        let tmp := uninitialized_move q.storage 0 q.storage_size tmp 0
        let _released := destroy q.storage 0 q.storage_size
        { q with storage := tmp, storage_capacity := new_size }
      else q
    ({ q1 with storage := q1.storage.set q1.storage_size (some v), storage_size := new_size }, ()))

/-- `void pop( std::optional<T>& out )`: the second component of the result is `out` after the
call. `std::destroy_at` ends the lifetime of the moved-from element for every element type,
so the vacated slot holds no element. Moving from a slot that holds no element is undefined
in the source; the embedding yields `none` there, which a well-formed container never does. -/
def pop (g : schedule) (q : tsqueue α) (_out : Option α) :
    Outcome (tsqueue α) (tsqueue α × Option α) :=
  scoped_lock g q (fun q =>
    if q.storage_size = 0 then
      (q, none)
    else
      let q1 := { q with storage_size := q.storage_size - 1 }
      let out := q1.storage.getD q1.storage_size none
      ({ q1 with storage := q1.storage.set q1.storage_size none }, out))

/-- `void clear()`. -/
def clear [element α] (g : schedule) (q : tsqueue α) : Outcome (tsqueue α) (tsqueue α × Unit) :=
  scoped_lock g q (fun q =>
    ({ q with storage := destroy q.storage 0 q.storage_size, storage_size := 0 }, ()))

/-- The lock of the container is free. -/
def unlocked (q : tsqueue α) : Prop := q.spinlock.atomic_lock = 0

instance (q : tsqueue α) : Decidable q.unlocked := by
  unfold unlocked
  infer_instance

/-- Well-formed buffer: `storage` has `storage_capacity` slots, `storage_size` of them are in
use, and the slots `[0, storage_size)` hold live elements. -/
def wf (q : tsqueue α) : Prop :=
  q.storage.length = q.storage_capacity ∧ q.storage_size ≤ q.storage_capacity ∧
    (q.storage.take q.storage_size).all Option.isSome = true

instance (q : tsqueue α) : Decidable q.wf := by
  unfold wf
  infer_instance

/-- The live elements, oldest first. -/
def elements (q : tsqueue α) : List α := (q.storage.take q.storage_size).reduceOption

/-- The mutating operations of the container. -/
inductive call (α : Type) where
  | push (v : α)
  | pop (out : Option α)
  | clear

/-- One operation; the list is what a `pop` left in its output slot, empty for the others. -/
def apply [element α] (g : schedule) (c : call α) (q : tsqueue α) :
    Outcome (tsqueue α) (tsqueue α × List (Option α)) :=
  match c with
  | .push v =>
    match push g q v with
    | .returned r => .returned (r.1, [])
    | .spinning q' => .spinning q'
  | .pop out =>
    match pop g q out with
    | .returned r => .returned (r.1, [r.2])
    | .spinning q' => .spinning q'
  | .clear =>
    match clear g q with
    | .returned r => .returned (r.1, [])
    | .spinning q' => .spinning q'

/-- A sequence of operations, each under its own schedule and run to completion before the
next starts: the final container and the outputs of the pops, in order. -/
def run [element α] : List (schedule × call α) → tsqueue α →
    Outcome (tsqueue α) (tsqueue α × List (Option α))
  | [], q => .returned (q, [])
  | (g, c) :: rest, q =>
    match apply g c q with
    | .spinning q' => .spinning q'
    | .returned r =>
      match run rest r.1 with
      | .spinning q' => .spinning q'
      | .returned r' => .returned (r'.1, r.2 ++ r'.2)

/-- The containers a sequence of operations goes through: the initial one, then the one after
each completed operation. -/
def states [element α] : List (schedule × call α) → tsqueue α → List (tsqueue α)
  | [], q => [q]
  | (g, c) :: rest, q =>
    match apply g c q with
    | .spinning _ => [q]
    | .returned r => q :: states rest r.1

/-- The largest `storage_size` among the containers of a list. -/
def high_water (l : List (tsqueue α)) : Nat := (l.map storage_size).foldr max 0

/-- The values a sequence of operations pushes, in order. -/
def pushed : List (schedule × call α) → List α
  | [] => []
  | (_, .push v) :: rest => v :: pushed rest
  | (_, .pop _) :: rest => pushed rest
  | (_, .clear) :: rest => pushed rest

/-- The sequence consists of `push` and `pop` operations only. -/
def push_pop_only : List (schedule × call α) → Bool
  | [] => true
  | (_, .push _) :: rest => push_pop_only rest
  | (_, .pop _) :: rest => push_pop_only rest
  | (_, .clear) :: _ => false

/-- The container a call is in when it has returned or is still spinning. -/
def after : Outcome (tsqueue α) (tsqueue α × β) → tsqueue α
  | .returned r => r.1
  | .spinning q => q

end tsqueue

end spl

namespace spl

namespace shared_spinlock

/-! ### The spin loops of the lock -/

theorem lock_loop_spinning (sched : List Bool) (s : shared_spinlock) (h : s.atomic_lock ≠ 0) :
    lock_loop sched s = .spinning s := by
  induction sched with
  | nil => rfl
  | cons b sched ih => simp [lock_loop, h, ih]

theorem lock_loop_returned (sched : List Bool) (s : shared_spinlock) (h : s.atomic_lock = 0)
    (hf : false ∈ sched) : lock_loop sched s = .returned ⟨WRITE_MODE, s.write_pending⟩ := by
  induction sched with
  | nil => simp at hf
  | cons b sched ih =>
    cases b with
    | false => simp [lock_loop, h, compare_exchange_weak, compare_exchange_strong]
    | true =>
      have hf' : false ∈ sched := by simpa using hf
      simp [lock_loop, h, compare_exchange_weak, ih hf']

theorem lock_loop_inv (sched : List Bool) (s s' : shared_spinlock)
    (h : lock_loop sched s = .returned s') :
    s.atomic_lock = 0 ∧ s' = ⟨WRITE_MODE, s.write_pending⟩ := by
  by_cases h0 : s.atomic_lock = 0
  · refine ⟨h0, ?_⟩
    induction sched with
    | nil => simp [lock_loop] at h
    | cons b sched ih =>
      cases b with
      | false =>
        simp [lock_loop, h0, compare_exchange_weak, compare_exchange_strong] at h
        exact h.symm
      | true =>
        simp [lock_loop, h0, compare_exchange_weak] at h
        exact ih h
  · rw [lock_loop_spinning sched s h0] at h
    cases h

theorem lock_inv (sched : List Bool) (s s' : shared_spinlock)
    (h : lock sched s = .returned s') : s.atomic_lock = 0 ∧ s' = ⟨WRITE_MODE, true⟩ := by
  have := lock_loop_inv sched _ s' h
  simpa [test_and_set] using this

theorem lock_returned (sched : List Bool) (s : shared_spinlock) (h : s.atomic_lock = 0)
    (hf : false ∈ sched) : lock sched s = .returned ⟨WRITE_MODE, true⟩ := by
  have := lock_loop_returned sched s.test_and_set.2 (by simpa [test_and_set] using h) hf
  simpa [lock, test_and_set] using this

theorem unlock_loop_returned (sched : List Bool) (s : shared_spinlock) (hf : false ∈ sched) :
    unlock_loop sched s =
      .returned ⟨if s.atomic_lock = WRITE_MODE then 0 else s.atomic_lock, s.write_pending⟩ := by
  induction sched with
  | nil => simp at hf
  | cons b sched ih =>
    by_cases hw : s.atomic_lock = WRITE_MODE
    · cases b with
      | false => simp [unlock_loop, hw, compare_exchange_weak, compare_exchange_strong]
      | true =>
        have hf' : false ∈ sched := by simpa using hf
        have := ih hf'
        simp [unlock_loop, hw, compare_exchange_weak] at this ⊢
        exact this
    · simp [unlock_loop, hw]

theorem unlock_loop_inv (sched : List Bool) (s s' : shared_spinlock)
    (h : unlock_loop sched s = .returned s') :
    s' = ⟨if s.atomic_lock = WRITE_MODE then 0 else s.atomic_lock, s.write_pending⟩ := by
  induction sched with
  | nil => simp [unlock_loop] at h
  | cons b sched ih =>
    by_cases hw : s.atomic_lock = WRITE_MODE
    · cases b with
      | false =>
        simp [unlock_loop, hw, compare_exchange_weak, compare_exchange_strong] at h
        simp [hw, ← h]
      | true =>
        simp [unlock_loop, hw, compare_exchange_weak] at h
        exact ih h
    · simp [unlock_loop, hw] at h
      simp [hw, ← h]

theorem unlock_returned (sched : List Bool) (s : shared_spinlock) (hf : false ∈ sched) :
    unlock sched s =
      .returned ⟨if s.atomic_lock = WRITE_MODE then 0 else s.atomic_lock, false⟩ := by
  have := unlock_loop_returned sched s.clear hf
  simpa [unlock, clear] using this

theorem unlock_inv (sched : List Bool) (s s' : shared_spinlock)
    (h : unlock sched s = .returned s') :
    s' = ⟨if s.atomic_lock = WRITE_MODE then 0 else s.atomic_lock, false⟩ := by
  have := unlock_loop_inv sched s.clear s' h
  simpa [clear] using this

theorem try_lock_shared_inv (s s' : shared_spinlock) (h : s.try_lock_shared = (true, s')) :
    s.atomic_lock < READ_MAX ∧ ¬ (s.atomic_lock = 0 ∧ s.write_pending = true) ∧
      s' = ⟨s.atomic_lock + 1, s.write_pending⟩ := by
  unfold try_lock_shared at h
  simp only [test] at h
  split_ifs at h with h1 h2
  · simp at h
  · refine ⟨h2, h1, ?_⟩
    have hlt : (s.atomic_lock + 1) % 4294967296 = s.atomic_lock + 1 := by
      simp only [READ_MAX, WRITE_MODE] at h2
      omega
    simp [compare_exchange_strong] at h
    rw [hlt] at h
    exact h.symm
  · simp at h

theorem lock_shared_inv (sched : List Bool) (s s' : shared_spinlock)
    (h : lock_shared sched s = .returned s') :
    s.atomic_lock < READ_MAX ∧ ¬ (s.atomic_lock = 0 ∧ s.write_pending = true) ∧
      s' = ⟨s.atomic_lock + 1, s.write_pending⟩ := by
  induction sched with
  | nil => simp [lock_shared] at h
  | cons b sched ih =>
    unfold lock_shared at h
    simp only [test] at h
    split_ifs at h with h1 h2
    · exact ih h
    · cases b with
      | false =>
        refine ⟨h2, h1, ?_⟩
        have hlt : (s.atomic_lock + 1) % 4294967296 = s.atomic_lock + 1 := by
          simp only [READ_MAX, WRITE_MODE] at h2
          omega
        simp [compare_exchange_weak, compare_exchange_strong] at h
        rw [hlt] at h
        exact h.symm
      | true =>
        simp [compare_exchange_weak] at h
        exact ih h
    · exact ih h

theorem unlock_shared_inv (sched : List Bool) (s s' : shared_spinlock)
    (h : unlock_shared sched s = .returned s') :
    s.atomic_lock ≤ READ_MAX ∧ s' = ⟨s.atomic_lock - 1, s.write_pending⟩ := by
  induction sched with
  | nil => simp [unlock_shared] at h
  | cons b sched ih =>
    unfold unlock_shared at h
    simp only at h
    split_ifs at h with h1 h2
    · simp at h
      subst h
      refine ⟨by omega, ?_⟩
      cases s
      simp_all
    · cases b with
      | false =>
        refine ⟨h2, ?_⟩
        have hlt : (s.atomic_lock + 4294967295) % 4294967296 = s.atomic_lock - 1 := by
          simp only [READ_MAX, WRITE_MODE] at h2
          omega
        simp [compare_exchange_weak, compare_exchange_strong] at h
        rw [hlt] at h
        exact h.symm
      | true =>
        simp [compare_exchange_weak] at h
        exact ih h
    · exact ih h

theorem try_lock_cases (s : shared_spinlock) :
    (s.atomic_lock = 0 ∧ s.try_lock = (true, ⟨WRITE_MODE, s.write_pending⟩)) ∨
      (s.atomic_lock ≠ 0 ∧ s.try_lock = (false, s)) := by
  by_cases h : s.atomic_lock = 0
  · left
    simp [try_lock, compare_exchange_strong, h]
  · right
    simp [try_lock, h]

theorem try_lock_shared_false (s s' : shared_spinlock) (h : s.try_lock_shared = (false, s')) :
    s' = s := by
  unfold try_lock_shared at h
  simp only at h
  split_ifs at h
  · simp at h
    exact h.symm
  · simp [compare_exchange_strong] at h
  · simp at h
    exact h.symm

/-- A completed call keeps the counter within `0 .. WRITE_MODE`. -/
theorem call_le_write_mode (o : op) (sched : List Bool) (s s' : shared_spinlock) (b : Bool)
    (hs : s.atomic_lock ≤ WRITE_MODE) (h : call o sched s = some (b, s')) :
    s'.atomic_lock ≤ WRITE_MODE := by
  cases o with
  | try_lock =>
    rcases try_lock_cases s with ⟨_, h'⟩ | ⟨_, h'⟩ <;>
      · simp only [call, h', Option.some.injEq, Prod.mk.injEq] at h
        obtain ⟨-, rfl⟩ := h
        first | exact hs | exact le_refl _
  | try_lock_shared =>
    simp only [call, Option.some.injEq] at h
    cases b with
    | true =>
      obtain ⟨h1, -, h3⟩ := try_lock_shared_inv s s' h
      subst h3
      simp only [READ_MAX] at h1
      show s.atomic_lock + 1 ≤ WRITE_MODE
      omega
    | false =>
      rw [try_lock_shared_false s s' h]
      exact hs
  | lock_shared =>
    simp only [call] at h
    split at h
    · next s1 heq =>
      simp only [Option.some.injEq, Prod.mk.injEq] at h
      obtain ⟨h1, -, h3⟩ := lock_shared_inv sched s s1 heq
      rw [← h.2, h3]
      simp only [READ_MAX] at h1
      show s.atomic_lock + 1 ≤ WRITE_MODE
      omega
    · cases h
  | unlock_shared =>
    simp only [call] at h
    split at h
    · next s1 heq =>
      simp only [Option.some.injEq, Prod.mk.injEq] at h
      obtain ⟨-, h3⟩ := unlock_shared_inv sched s s1 heq
      rw [← h.2, h3]
      show s.atomic_lock - 1 ≤ WRITE_MODE
      omega
    · cases h
  | lock =>
    simp only [call] at h
    split at h
    · next s1 heq =>
      simp only [Option.some.injEq, Prod.mk.injEq] at h
      obtain ⟨-, h3⟩ := lock_inv sched s s1 heq
      rw [← h.2, h3]
    · cases h
  | unlock =>
    simp only [call] at h
    split at h
    · next s1 heq =>
      simp only [Option.some.injEq, Prod.mk.injEq] at h
      have h3 := unlock_inv sched s s1 heq
      rw [← h.2, h3]
      show (if s.atomic_lock = WRITE_MODE then 0 else s.atomic_lock) ≤ WRITE_MODE
      split_ifs <;> omega
    · cases h

theorem exec_le_write_mode (calls : List (op × List Bool)) (s s' : shared_spinlock)
    (hs : s.atomic_lock ≤ WRITE_MODE) (h : exec calls s = some s') :
    s'.atomic_lock ≤ WRITE_MODE := by
  induction calls generalizing s with
  | nil =>
    simp only [exec, Option.some.injEq] at h
    rw [← h]
    exact hs
  | cons c rest ih =>
    obtain ⟨o, sched⟩ := c
    simp only [exec] at h
    split at h
    · next b s1 heq => exact ih s1 (call_le_write_mode o sched s s1 b hs heq) h
    · cases h

/-- Repeated successful `try_lock_shared` counts the readers up. -/
theorem exec_try_lock_shared_replicate (n c : Nat) (h : c + n ≤ READ_MAX) :
    exec (List.replicate n (op.try_lock_shared, [])) ⟨c, false⟩ = some ⟨c + n, false⟩ := by
  induction n generalizing c with
  | zero => rfl
  | succ n ih =>
    have hc : c < READ_MAX := by omega
    have hm : (c + 1) % 4294967296 = c + 1 := by
      simp only [READ_MAX, WRITE_MODE] at hc
      omega
    have hstep : try_lock_shared ⟨c, false⟩ = (true, ⟨c + 1, false⟩) := by
      simp [try_lock_shared, test, compare_exchange_strong, hc, hm]
    have := ih (c + 1) (by omega)
    simp only [List.replicate_succ, exec, call, hstep]
    rw [this]
    congr 2
    omega

theorem lock_shared_returned (sched : List Bool) (s : shared_spinlock)
    (hlt : s.atomic_lock < READ_MAX) (hfree : ¬ (s.atomic_lock = 0 ∧ s.write_pending = true))
    (hf : false ∈ sched) :
    lock_shared sched s = .returned ⟨s.atomic_lock + 1, s.write_pending⟩ := by
  have hm : (s.atomic_lock + 1) % 4294967296 = s.atomic_lock + 1 := by
    simp only [READ_MAX, WRITE_MODE] at hlt
    omega
  induction sched with
  | nil => simp at hf
  | cons b sched ih =>
    unfold lock_shared
    simp only [test]
    rw [if_neg hfree, if_pos hlt]
    cases b with
    | false =>
      simp only [compare_exchange_weak, compare_exchange_strong, if_true, Bool.false_eq_true,
        if_false]
      norm_num
      omega
    | true =>
      have hf' : false ∈ sched := by simpa using hf
      simp [compare_exchange_weak, ih hf']

theorem unlock_shared_returned (sched : List Bool) (s : shared_spinlock)
    (hle : s.atomic_lock ≤ READ_MAX) (hf : false ∈ sched) :
    unlock_shared sched s = .returned ⟨s.atomic_lock - 1, s.write_pending⟩ := by
  have hm : (s.atomic_lock + 4294967295) % 4294967296 = s.atomic_lock - 1 ∨ s.atomic_lock = 0 := by
    simp only [READ_MAX, WRITE_MODE] at hle
    omega
  induction sched with
  | nil => simp at hf
  | cons b sched ih =>
    unfold unlock_shared
    simp only
    by_cases h0 : s.atomic_lock = 0
    · rw [if_pos h0]
      cases s
      simp_all
    · rw [if_neg h0, if_pos hle]
      have hm' := hm.resolve_right h0
      cases b with
      | false =>
        simp [compare_exchange_weak, compare_exchange_strong]
        exact hm'
      | true =>
        have hf' : false ∈ sched := by simpa using hf
        simp [compare_exchange_weak, ih hf']

/-! ### C1 -/

/-- C1: in every lock state whose counter equals MAX (`WRITE_MODE`, exclusively held), with
the writer-intent flag set or clear, `try_lock` returns false and `try_lock_shared` returns
false, and each leaves the counter and the flag as they were. -/
theorem try_lock_fails_while_exclusively_held (s : shared_spinlock)
    (h : s.atomic_lock = WRITE_MODE) :
    s.try_lock = (false, s) ∧ s.try_lock_shared = (false, s) := by
  constructor
  · have h0 : s.atomic_lock ≠ 0 := by rw [h]; decide
    simp [try_lock, h0]
  · have h0 : s.atomic_lock ≠ 0 := by rw [h]; decide
    have h1 : ¬ s.atomic_lock < READ_MAX := by rw [h]; decide
    simp [try_lock_shared, h0, h1]

theorem try_lock_fails_while_exclusively_held_witness :
    (⟨4294967295, true⟩ : shared_spinlock).atomic_lock = WRITE_MODE ∧
      try_lock ⟨4294967295, true⟩ = (false, ⟨4294967295, true⟩) ∧
      try_lock_shared ⟨4294967295, true⟩ = (false, ⟨4294967295, true⟩) :=
  ⟨by decide, try_lock_fails_while_exclusively_held ⟨4294967295, true⟩ (by decide)⟩

/-! ### C9 -/

/-- C9, as stated, fails: 4294967293 (MAX-2) successful `try_lock_shared` calls from the initial
state reach the reader count MAX-2, and there one more `try_lock_shared` succeeds and
leaves the counter at 4294967294, which is MAX-1 (`READ_MAX`), not strictly below it. -/
theorem reader_count_reaches_read_max :
    exec (List.replicate 4294967293 (op.try_lock_shared, [])) ⟨0, false⟩ =
        some ⟨4294967293, false⟩ ∧
      try_lock_shared ⟨4294967293, false⟩ = (true, ⟨4294967294, false⟩) ∧
      (4294967294 : Nat) = WRITE_MODE - 1 ∧ ¬ (4294967294 < WRITE_MODE - 1) :=
  ⟨exec_try_lock_shared_replicate 4294967293 0 (by decide), by decide, by decide, by decide⟩

/-- C9, amended: in every lock state reachable from the initial unlocked state by a sequence
of completed operations the counter is at most MAX, and a successful shared acquisition
(`try_lock_shared` returning true, or `lock_shared` returning) adds one to the counter and
leaves it in `1 .. MAX-1`: the reader count never reaches the writer value MAX. -/
theorem shared_acquisition_stays_below_write_mode (calls : List (op × List Bool))
    (s : shared_spinlock) (hreach : exec calls ⟨0, false⟩ = some s) :
    s.atomic_lock ≤ WRITE_MODE ∧
      (∀ s', s.try_lock_shared = (true, s') →
        s'.atomic_lock = s.atomic_lock + 1 ∧ 1 ≤ s'.atomic_lock ∧
          s'.atomic_lock ≤ WRITE_MODE - 1) ∧
      (∀ sched s', s.lock_shared sched = .returned s' →
        s'.atomic_lock = s.atomic_lock + 1 ∧ 1 ≤ s'.atomic_lock ∧
          s'.atomic_lock ≤ WRITE_MODE - 1) := by
  refine ⟨exec_le_write_mode calls ⟨0, false⟩ s (Nat.zero_le _) hreach, ?_, ?_⟩
  · intro s' h
    obtain ⟨h1, -, h3⟩ := try_lock_shared_inv s s' h
    subst h3
    simp only [READ_MAX] at h1
    refine ⟨rfl, ?_, ?_⟩
    · show 1 ≤ s.atomic_lock + 1
      omega
    · show s.atomic_lock + 1 ≤ WRITE_MODE - 1
      omega
  · intro sched s' h
    obtain ⟨h1, -, h3⟩ := lock_shared_inv sched s s' h
    subst h3
    simp only [READ_MAX] at h1
    refine ⟨rfl, ?_, ?_⟩
    · show 1 ≤ s.atomic_lock + 1
      omega
    · show s.atomic_lock + 1 ≤ WRITE_MODE - 1
      omega

theorem shared_acquisition_stays_below_write_mode_witness :
    exec [(op.lock_shared, [true, false]), (op.try_lock_shared, [])] ⟨0, false⟩ =
        some ⟨2, false⟩ ∧
      (∀ s', try_lock_shared ⟨2, false⟩ = (true, s') →
        s'.atomic_lock = 2 + 1 ∧ 1 ≤ s'.atomic_lock ∧ s'.atomic_lock ≤ WRITE_MODE - 1) :=
  ⟨by decide,
    (shared_acquisition_stays_below_write_mode
      [(op.lock_shared, [true, false]), (op.try_lock_shared, [])] ⟨2, false⟩ (by decide)).2.1⟩

/-! ### Writer intent over serialized calls -/

/-- Every completed call keeps: counter = MAX only with the flag set or after a `try_lock`. -/
theorem call_intent_invariant (o : op) (sched : List Bool) (s s' : shared_spinlock)
    (h h' : holders) (b : Bool)
    (hinv : s.atomic_lock = WRITE_MODE → s.write_pending = true ∨ h.by_try_lock = true)
    (hcall : call o sched s = some (b, s')) (hupd : h.update o b = some h') :
    s'.atomic_lock = WRITE_MODE → s'.write_pending = true ∨ h'.by_try_lock = true := by
  have hne : WRITE_MODE ≠ 0 := by decide
  cases o with
  | try_lock =>
    rcases try_lock_cases s with ⟨_, hc⟩ | ⟨_, hc⟩
    · simp only [call, hc, Option.some.injEq, Prod.mk.injEq] at hcall
      obtain ⟨rfl, rfl⟩ := hcall
      simp only [holders.update, if_true, Option.some.injEq] at hupd
      subst hupd
      intro _
      right
      rfl
    · simp only [call, hc, Option.some.injEq, Prod.mk.injEq] at hcall
      obtain ⟨rfl, rfl⟩ := hcall
      simp [holders.update] at hupd
      subst hupd
      exact hinv
  | try_lock_shared =>
    simp only [call, Option.some.injEq] at hcall
    cases b with
    | true =>
      obtain ⟨h1, -, h3⟩ := try_lock_shared_inv s s' hcall
      subst h3
      simp only [READ_MAX] at h1
      intro hw
      exfalso
      have hw' : s.atomic_lock + 1 = WRITE_MODE := hw
      omega
    | false =>
      rw [try_lock_shared_false s s' hcall]
      simp [holders.update] at hupd
      subst hupd
      exact hinv
  | lock_shared =>
    simp only [call] at hcall
    split at hcall
    · next s1 heq =>
      simp only [Option.some.injEq, Prod.mk.injEq] at hcall
      obtain ⟨h1, -, h3⟩ := lock_shared_inv sched s s1 heq
      rw [← hcall.2, h3]
      simp only [READ_MAX] at h1
      intro hw
      exfalso
      have hw' : s.atomic_lock + 1 = WRITE_MODE := hw
      omega
    · cases hcall
  | unlock_shared =>
    simp only [call] at hcall
    split at hcall
    · next s1 heq =>
      simp only [Option.some.injEq, Prod.mk.injEq] at hcall
      obtain ⟨h1, h3⟩ := unlock_shared_inv sched s s1 heq
      rw [← hcall.2, h3]
      simp only [READ_MAX] at h1
      intro hw
      exfalso
      have hw' : s.atomic_lock - 1 = WRITE_MODE := hw
      omega
    · cases hcall
  | lock =>
    simp only [call] at hcall
    split at hcall
    · next s1 heq =>
      simp only [Option.some.injEq, Prod.mk.injEq] at hcall
      obtain ⟨-, h3⟩ := lock_inv sched s s1 heq
      rw [← hcall.2, h3]
      intro _
      left
      rfl
    · cases hcall
  | unlock =>
    simp only [call] at hcall
    split at hcall
    · next s1 heq =>
      simp only [Option.some.injEq, Prod.mk.injEq] at hcall
      have h3 := unlock_inv sched s s1 heq
      rw [← hcall.2, h3]
      intro hw
      exfalso
      have hw' : (if s.atomic_lock = WRITE_MODE then 0 else s.atomic_lock) = WRITE_MODE := hw
      split_ifs at hw' with hc
      · exact hne hw'.symm
      · exact hc hw'
    · cases hcall

theorem exec_held_intent_invariant (calls : List (op × List Bool))
    (t t' : shared_spinlock × holders)
    (hinv : t.1.atomic_lock = WRITE_MODE → t.1.write_pending = true ∨ t.2.by_try_lock = true)
    (h : exec_held calls t = some t') :
    t'.1.atomic_lock = WRITE_MODE → t'.1.write_pending = true ∨ t'.2.by_try_lock = true := by
  induction calls generalizing t with
  | nil =>
    simp only [exec_held, Option.some.injEq] at h
    rw [← h]
    exact hinv
  | cons c rest ih =>
    obtain ⟨o, sched⟩ := c
    simp only [exec_held] at h
    split at h
    · next b s1 hcall =>
      split at h
      · next h1 hupd =>
        exact ih (s1, h1) (call_intent_invariant o sched t.1 s1 t.2 h1 b hinv hcall hupd) h
      · cases h
    · cases h

/-- Serialized calls: in every state reached from the initial state by calls run one after
another to completion, releases made by holders, counter = MAX only with the flag set or
with the exclusive hold acquired by `try_lock`. -/
theorem exec_held_intent (calls : List (op × List Bool)) (s : shared_spinlock)
    (h : holders) (hreach : exec_held calls (⟨0, false⟩, ⟨0, 0, false⟩) = some (s, h))
    (hheld : s.atomic_lock = WRITE_MODE) :
    s.write_pending = true ∨ h.by_try_lock = true :=
  exec_held_intent_invariant calls (⟨0, false⟩, ⟨0, 0, false⟩) (s, h)
    (fun h0 => absurd h0 (by decide)) hreach hheld

end shared_spinlock

end spl

namespace spl

namespace tsqueue

variable {α β : Type}

/-! ### The buffer primitives -/

theorem length_uninitialized_move_loop (src : List (Option α)) (n first dest : Nat)
    (buf : List (Option α)) :
    (uninitialized_move_loop src n first dest buf).length = buf.length := by
  induction n generalizing first dest buf with
  | zero => rfl
  | succ n ih => simp [uninitialized_move_loop, ih]

theorem getElem?_uninitialized_move_loop (src : List (Option α)) (n first dest : Nat)
    (buf : List (Option α)) (i : Nat) (hfit : dest + n ≤ buf.length) :
    (uninitialized_move_loop src n first dest buf)[i]? =
      if dest ≤ i ∧ i < dest + n then some (src.getD (first + (i - dest)) none) else buf[i]? := by
  induction n generalizing first dest buf with
  | zero =>
    have : ¬ (dest ≤ i ∧ i < dest + 0) := by omega
    rw [if_neg this]
    rfl
  | succ n ih =>
    have hfit' : dest + 1 + n ≤ (buf.set dest (src.getD first none)).length := by
      rw [List.length_set]
      omega
    rw [uninitialized_move_loop, ih (first + 1) (dest + 1) _ hfit', List.getElem?_set]
    by_cases h1 : dest + 1 ≤ i ∧ i < dest + 1 + n
    · have h2 : dest ≤ i ∧ i < dest + (n + 1) := by omega
      have h3 : first + 1 + (i - (dest + 1)) = first + (i - dest) := by omega
      rw [if_pos h1, if_pos h2, h3]
    · rw [if_neg h1]
      by_cases h4 : dest = i
      · have h2 : dest ≤ i ∧ i < dest + (n + 1) := by omega
        have h5 : dest < buf.length := by omega
        rw [if_pos h4, if_pos h5, if_pos h2]
        subst h4
        simp
      · have h2 : ¬ (dest ≤ i ∧ i < dest + (n + 1)) := by omega
        rw [if_neg h4, if_neg h2]

theorem length_destroy_loop (n first : Nat) (buf : List (Option α)) :
    (destroy_loop n first buf).length = buf.length := by
  induction n generalizing first buf with
  | zero => rfl
  | succ n ih => simp [destroy_loop, ih]

theorem length_destroy [element α] (buf : List (Option α)) (first last : Nat) :
    (destroy buf first last).length = buf.length := by
  unfold destroy
  split_ifs
  · rfl
  · exact length_destroy_loop _ _ _

/-! ### The guards -/

/-- An exclusive guard on a free lock, under a fair schedule, runs the body with the lock held
and leaves the lock free and the writer-intent flag clear. -/
theorem scoped_lock_returned (g : schedule) (q : tsqueue α) (body : tsqueue α → tsqueue α × β)
    (hun : q.unlocked) (hg : g.fair)
    (hb : (body { q with spinlock := ⟨shared_spinlock.WRITE_MODE, true⟩ }).1.spinlock.atomic_lock
      = shared_spinlock.WRITE_MODE) :
    scoped_lock g q body =
      .returned
        ({ (body { q with spinlock := ⟨shared_spinlock.WRITE_MODE, true⟩ }).1 with
            spinlock := ⟨0, false⟩ },
          (body { q with spinlock := ⟨shared_spinlock.WRITE_MODE, true⟩ }).2) := by
  unfold scoped_lock
  rw [shared_spinlock.lock_returned g.acquire q.spinlock hun hg.1]
  simp only
  rw [shared_spinlock.unlock_returned g.release _ hg.2, if_pos hb]

/-- What `push` returns with when the lock is free and the schedule fair. -/
theorem push_returned [element α] (g : schedule) (q : tsqueue α) (v : α) (hun : q.unlocked)
    (hg : g.fair) :
    push g q v =
      .returned
        (if q.storage_size + 1 > q.storage_capacity then
          { spinlock := ⟨0, false⟩,
            storage :=
              (uninitialized_move q.storage 0 q.storage_size
                (List.replicate (q.storage_size + 1) none) 0).set q.storage_size (some v),
            storage_capacity := q.storage_size + 1,
            storage_size := q.storage_size + 1 }
        else
          { spinlock := ⟨0, false⟩,
            storage := q.storage.set q.storage_size (some v),
            storage_capacity := q.storage_capacity,
            storage_size := q.storage_size + 1 }, ()) := by
  unfold push
  rw [scoped_lock_returned g q _ hun hg]
  · by_cases h : q.storage_size + 1 > q.storage_capacity
    · simp [h]
    · simp [h]
  · by_cases h : q.storage_size + 1 > q.storage_capacity
    · simp [h]
    · simp [h]

/-- What `pop` returns with when the lock is free and the schedule fair. -/
theorem pop_returned (g : schedule) (q : tsqueue α) (out : Option α) (hun : q.unlocked)
    (hg : g.fair) :
    pop g q out =
      .returned
        (if q.storage_size = 0 then
          ({ q with spinlock := ⟨0, false⟩ }, none)
        else
          ({ spinlock := ⟨0, false⟩,
             storage := q.storage.set (q.storage_size - 1) none,
             storage_capacity := q.storage_capacity,
             storage_size := q.storage_size - 1 },
            q.storage.getD (q.storage_size - 1) none)) := by
  unfold pop
  rw [scoped_lock_returned g q _ hun hg]
  · by_cases h : q.storage_size = 0
    · simp [h]
    · simp [h]
  · by_cases h : q.storage_size = 0
    · simp [h]
    · simp [h]

/-- What `clear` returns with when the lock is free and the schedule fair. -/
theorem clear_returned [element α] (g : schedule) (q : tsqueue α) (hun : q.unlocked)
    (hg : g.fair) :
    clear g q =
      .returned
        ({ spinlock := ⟨0, false⟩,
           storage := destroy q.storage 0 q.storage_size,
           storage_capacity := q.storage_capacity,
           storage_size := 0 }, ()) := by
  unfold clear
  rw [scoped_lock_returned g q _ hun hg]
  rfl

/-! ### Effect of one operation on a well-formed container -/

theorem wf_of_take (q : tsqueue α) (l : List α)
    (hlen : q.storage.length = q.storage_capacity) (hle : q.storage_size ≤ q.storage_capacity)
    (h : q.storage.take q.storage_size = l.map some) : q.wf := by
  refine ⟨hlen, hle, ?_⟩
  rw [h, List.all_eq_true]
  intro x hx
  obtain ⟨a, -, rfl⟩ := List.mem_map.1 hx
  rfl

/-- The live prefix of a well-formed buffer is its elements, all present. -/
theorem take_eq_map_elements (q : tsqueue α) (hwf : q.wf) :
    q.storage.take q.storage_size = q.elements.map some := by
  obtain ⟨-, -, hall⟩ := hwf
  rw [List.all_eq_true] at hall
  unfold elements
  generalize q.storage.take q.storage_size = l at hall
  induction l with
  | nil => rfl
  | cons x l ih =>
    have hx : x.isSome = true := hall x (List.mem_cons_self _ _)
    obtain ⟨a, rfl⟩ := Option.isSome_iff_exists.1 hx
    have := ih (fun y hy => hall y (List.mem_cons_of_mem _ hy))
    simp [List.reduceOption_cons_of_some, ← this]

theorem length_elements (q : tsqueue α) (hwf : q.wf) : q.elements.length = q.storage_size := by
  have h := congrArg List.length (take_eq_map_elements q hwf)
  rw [List.length_map, List.length_take] at h
  obtain ⟨h1, h2, -⟩ := hwf
  omega

theorem push_spec [element α] (g : schedule) (q : tsqueue α) (v : α) (hwf : q.wf)
    (hun : q.unlocked) (hg : g.fair) :
    ∃ q', push g q v = .returned (q', ()) ∧ q'.wf ∧ q'.spinlock = ⟨0, false⟩ ∧
      q'.storage_size = q.storage_size + 1 ∧
      q'.storage_capacity =
        (if q.storage_size + 1 > q.storage_capacity then q.storage_size + 1
          else q.storage_capacity) ∧
      q'.storage.take (q.storage_size + 1) = q.storage.take q.storage_size ++ [some v] := by
  obtain ⟨hlen, hle, hall⟩ := hwf
  have htake : ∀ (st : List (Option α)), q.storage_size < st.length →
      (∀ i, i < q.storage_size → st[i]? = q.storage[i]?) →
      (st.set q.storage_size (some v)).take (q.storage_size + 1) =
        q.storage.take q.storage_size ++ [some v] := by
    intro st hst hsame
    apply List.ext_getElem?
    intro i
    have hl : (q.storage.take q.storage_size).length = q.storage_size := by
      rw [List.length_take]
      omega
    rw [List.getElem?_take, List.getElem?_set, List.getElem?_append, hl, List.getElem?_take]
    by_cases h1 : i < q.storage_size
    · have h2 : i < q.storage_size + 1 := by omega
      have h3 : q.storage_size ≠ i := by omega
      rw [if_pos h2, if_neg h3, if_pos h1, if_pos h1]
      exact hsame i h1
    · by_cases h2 : i = q.storage_size
      · subst h2
        simp [hst]
      · have h3 : ¬ i < q.storage_size + 1 := by omega
        have h4 : i - q.storage_size ≠ 0 := by omega
        rw [if_neg h3, if_neg h1]
        obtain ⟨k, hk⟩ := Nat.exists_eq_succ_of_ne_zero h4
        rw [hk]
        rfl
  have hkey : ∀ (st : List (Option α)) (cap : Nat), q.storage_size < st.length →
      st.length = cap → (∀ i, i < q.storage_size → st[i]? = q.storage[i]?) →
      (⟨⟨0, false⟩, st.set q.storage_size (some v), cap, q.storage_size + 1⟩ :
        tsqueue α).wf := by
    intro st cap hst hcap hsame
    have ht := htake st hst hsame
    have hq := take_eq_map_elements q ⟨hlen, hle, hall⟩
    apply wf_of_take _ (q.elements ++ [v])
    · simpa using hcap
    · show q.storage_size + 1 ≤ cap
      omega
    · show (st.set q.storage_size (some v)).take (q.storage_size + 1) = _
      rw [ht, hq]
      simp
  rw [push_returned g q v hun hg]
  by_cases hgrow : q.storage_size + 1 > q.storage_capacity
  · have hsz : q.storage.length = q.storage_size := by omega
    have hfit : 0 + (q.storage_size - 0) ≤
        (List.replicate (q.storage_size + 1) (none : Option α)).length := by
      rw [List.length_replicate]
      omega
    have hsame : ∀ i, i < q.storage_size →
        (uninitialized_move q.storage 0 q.storage_size
          (List.replicate (q.storage_size + 1) none) 0)[i]? = q.storage[i]? := by
      intro i hi
      unfold uninitialized_move
      rw [getElem?_uninitialized_move_loop _ _ _ _ _ _ hfit]
      have h1 : 0 ≤ i ∧ i < 0 + (q.storage_size - 0) := by omega
      have h2 : i < q.storage.length := by omega
      rw [if_pos h1, List.getD_eq_getElem?_getD, List.getElem?_eq_getElem (by omega)]
      simp
    have hl : q.storage_size <
        (uninitialized_move q.storage 0 q.storage_size
          (List.replicate (q.storage_size + 1) none) 0).length := by
      unfold uninitialized_move
      rw [length_uninitialized_move_loop, List.length_replicate]
      omega
    have hl' : (uninitialized_move q.storage 0 q.storage_size
          (List.replicate (q.storage_size + 1) none) 0).length = q.storage_size + 1 := by
      unfold uninitialized_move
      rw [length_uninitialized_move_loop, List.length_replicate]
    rw [if_pos hgrow]
    refine ⟨_, rfl, hkey _ _ hl hl' hsame, rfl, rfl, ?_, htake _ hl hsame⟩
    rw [if_pos hgrow]
  · rw [if_neg hgrow]
    have hl : q.storage_size < q.storage.length := by omega
    refine ⟨_, rfl, hkey _ _ hl hlen (fun _ _ => rfl), rfl, rfl, ?_, htake _ hl (fun _ _ => rfl)⟩
    rw [if_neg hgrow]

theorem pop_spec (g : schedule) (q : tsqueue α) (out : Option α) (hwf : q.wf)
    (hun : q.unlocked) (hg : g.fair) (hpos : 0 < q.storage_size) :
    ∃ q' x, pop g q out = .returned (q', some x) ∧ q'.wf ∧ q'.spinlock = ⟨0, false⟩ ∧
      q'.storage_size = q.storage_size - 1 ∧ q'.storage_capacity = q.storage_capacity ∧
      q.storage[q.storage_size - 1]? = some (some x) ∧
      q'.storage.take (q.storage_size - 1) = q.storage.take (q.storage_size - 1) := by
  have hq := take_eq_map_elements q hwf
  have hn := length_elements q hwf
  obtain ⟨hlen, hle, hall⟩ := hwf
  have hne : q.storage_size ≠ 0 := by omega
  have hlast : q.storage[q.storage_size - 1]? =
      (q.elements.map some)[q.storage_size - 1]? := by
    rw [← hq, List.getElem?_take, if_pos (by omega)]
  have hidx : q.storage_size - 1 < q.elements.length := by omega
  rw [List.getElem?_map, List.getElem?_eq_getElem hidx] at hlast
  have hsame : (q.storage.set (q.storage_size - 1) none).take (q.storage_size - 1) =
      q.storage.take (q.storage_size - 1) := by
    apply List.ext_getElem?
    intro i
    rw [List.getElem?_take, List.getElem?_take, List.getElem?_set]
    by_cases h1 : i < q.storage_size - 1
    · have h2 : q.storage_size - 1 ≠ i := by omega
      rw [if_pos h1, if_pos h1, if_neg h2]
    · rw [if_neg h1, if_neg h1]
  rw [pop_returned g q out hun hg, if_neg hne]
  refine ⟨⟨⟨0, false⟩, q.storage.set (q.storage_size - 1) none, q.storage_capacity,
    q.storage_size - 1⟩, q.elements[q.storage_size - 1], ?_, ?_, rfl, rfl, rfl, hlast, hsame⟩
  · rw [List.getD_eq_getElem?_getD, hlast]
    rfl
  · apply wf_of_take _ (q.elements.take (q.storage_size - 1))
    · simpa using hlen
    · show q.storage_size - 1 ≤ q.storage_capacity
      omega
    · show (q.storage.set (q.storage_size - 1) none).take (q.storage_size - 1) = _
      rw [hsame, List.map_take, ← hq, List.take_take]
      congr 1
      omega

theorem pop_empty_spec (g : schedule) (q : tsqueue α) (out : Option α) (hun : q.unlocked)
    (hg : g.fair) (hzero : q.storage_size = 0) :
    pop g q out = .returned ({ q with spinlock := ⟨0, false⟩ }, none) := by
  rw [pop_returned g q out hun hg, if_pos hzero]

theorem clear_spec [element α] (g : schedule) (q : tsqueue α) (hwf : q.wf) (hun : q.unlocked)
    (hg : g.fair) :
    ∃ q', clear g q = .returned (q', ()) ∧ q'.wf ∧ q'.spinlock = ⟨0, false⟩ ∧
      q'.storage_size = 0 ∧ q'.storage_capacity = q.storage_capacity := by
  rw [clear_returned g q hun hg]
  refine ⟨_, rfl, ⟨?_, Nat.zero_le _, rfl⟩, rfl, rfl, rfl⟩
  show (destroy q.storage 0 q.storage_size).length = q.storage_capacity
  rw [length_destroy]
  exact hwf.1

/-- A shared guard on a free lock with no writer announced, under a fair schedule, runs the
body with one reader registered and leaves the lock as it was. -/
theorem scoped_shared_lock_returned (g : schedule) (q : tsqueue α)
    (body : tsqueue α → tsqueue α × β) (hfree : q.spinlock = ⟨0, false⟩) (hg : g.fair)
    (hb : (body { q with spinlock := ⟨1, false⟩ }).1.spinlock = ⟨1, false⟩) :
    scoped_shared_lock g q body =
      .returned
        ({ (body { q with spinlock := ⟨1, false⟩ }).1 with spinlock := ⟨0, false⟩ },
          (body { q with spinlock := ⟨1, false⟩ }).2) := by
  unfold scoped_shared_lock
  rw [hfree, shared_spinlock.lock_shared_returned g.acquire ⟨0, false⟩ (by decide) (by decide)
    hg.1]
  simp only
  rw [hb, shared_spinlock.unlock_shared_returned g.release ⟨1, false⟩ (by decide) hg.2]
  rfl

theorem was_size_returned (g : schedule) (q : tsqueue α) (hfree : q.spinlock = ⟨0, false⟩)
    (hg : g.fair) : was_size g q = .returned (q, q.storage_size) := by
  unfold was_size
  rw [scoped_shared_lock_returned g q _ hfree hg rfl]
  cases q
  simp_all

theorem was_capacity_returned (g : schedule) (q : tsqueue α) (hfree : q.spinlock = ⟨0, false⟩)
    (hg : g.fair) : was_capacity g q = .returned (q, q.storage_capacity) := by
  unfold was_capacity
  rw [scoped_shared_lock_returned g q _ hfree hg rfl]
  cases q
  simp_all

theorem was_empty_returned (g : schedule) (q : tsqueue α) (hfree : q.spinlock = ⟨0, false⟩)
    (hg : g.fair) : was_empty g q = .returned (q, decide (q.storage_size = 0)) := by
  unfold was_empty
  rw [was_size_returned g q hfree hg]

/-! ### C3 -/

/-- C3: for every well-formed container (elements in the slots `[0, count)`, `capacity` slots
allocated, lock free) and every value `v`, `push(v)` returns with count' = count + 1, the
new element `v` in slot `count`, the slots `[0, count)` as they were, and
capacity' = count + 1 when count + 1 > capacity, capacity' = capacity otherwise; so the
capacity changes exactly when count + 1 > capacity. -/
theorem push_appends_and_grows_to_fit [element α] (g : schedule) (q : tsqueue α) (v : α)
    (hwf : q.wf) (hun : q.unlocked) (hg : g.fair) :
    ∃ q', push g q v = .returned (q', ()) ∧
      q'.storage_size = q.storage_size + 1 ∧
      q'.storage[q.storage_size]? = some (some v) ∧
      (∀ i, i < q.storage_size → q'.storage[i]? = q.storage[i]?) ∧
      q'.elements = q.elements ++ [v] ∧
      q'.storage_capacity =
        (if q.storage_size + 1 > q.storage_capacity then q.storage_size + 1
          else q.storage_capacity) ∧
      (q'.storage_capacity ≠ q.storage_capacity ↔ q.storage_size + 1 > q.storage_capacity) := by
  obtain ⟨q', hpush, hwf', -, hsize, hcap, htake⟩ := push_spec g q v hwf hun hg
  have hslot : ∀ i, i < q.storage_size + 1 →
      q'.storage[i]? = (q.storage.take q.storage_size ++ [some v])[i]? := by
    intro i hi
    rw [← htake, List.getElem?_take, if_pos hi]
  have hl : (q.storage.take q.storage_size).length = q.storage_size := by
    rw [List.length_take]
    have := hwf.1
    have := hwf.2.1
    omega
  refine ⟨q', hpush, hsize, ?_, ?_, ?_, hcap, ?_⟩
  · rw [hslot _ (Nat.lt_succ_self _), List.getElem?_append, hl, if_neg (lt_irrefl _)]
    simp
  · intro i hi
    rw [hslot i (by omega), List.getElem?_append, hl, if_pos hi, List.getElem?_take, if_pos hi]
  · unfold elements
    rw [hsize, htake, List.reduceOption_append]
    rfl
  · rw [hcap]
    split_ifs with h
    · constructor
      · intro _
        exact h
      · intro _
        omega
    · constructor
      · intro hne
        exact absurd rfl hne
      · intro h'
        exact absurd h' h

theorem push_appends_and_grows_to_fit_witness :
    (⟨⟨0, true⟩, [some 7, some 8], 2, 2⟩ : tsqueue Nat).wf ∧
      (⟨⟨0, true⟩, [some 7, some 8], 2, 2⟩ : tsqueue Nat).unlocked ∧
      (⟨[true, false], [false]⟩ : schedule).fair ∧
      ∃ q', @push Nat ⟨false⟩ ⟨[true, false], [false]⟩ ⟨⟨0, true⟩, [some 7, some 8], 2, 2⟩ 9 =
          .returned (q', ()) ∧
        q'.storage_size = 2 + 1 ∧ q'.storage[2]? = some (some 9) ∧
        (∀ i, i < 2 → q'.storage[i]? = [some 7, some 8][i]?) ∧
        q'.elements = [7, 8] ++ [9] ∧
        q'.storage_capacity = (if 2 + 1 > 2 then 2 + 1 else 2) ∧
        (q'.storage_capacity ≠ 2 ↔ 2 + 1 > 2) :=
  ⟨by decide, by decide, by decide,
    @push_appends_and_grows_to_fit Nat ⟨false⟩ ⟨[true, false], [false]⟩
      ⟨⟨0, true⟩, [some 7, some 8], 2, 2⟩ 9 (by decide) (by decide) (by decide)⟩

/-! ### C4 -/

/-- C4: for every well-formed container with count > 0 (lock free), `pop` returns a present
value equal to the element in slot count - 1, sets count' = count - 1, leaves the slots
`[0, count - 1)` as they were and leaves the capacity unchanged. -/
theorem pop_returns_last_element (g : schedule) (q : tsqueue α) (out : Option α)
    (hwf : q.wf) (hun : q.unlocked) (hg : g.fair) (hpos : 0 < q.storage_size) :
    ∃ q' x, pop g q out = .returned (q', some x) ∧
      q.storage[q.storage_size - 1]? = some (some x) ∧
      q'.storage_size = q.storage_size - 1 ∧
      (∀ i, i < q.storage_size - 1 → q'.storage[i]? = q.storage[i]?) ∧
      q'.storage_capacity = q.storage_capacity := by
  obtain ⟨q', x, hpop, -, -, hsize, hcap, hlast, htake⟩ := pop_spec g q out hwf hun hg hpos
  refine ⟨q', x, hpop, hlast, hsize, ?_, hcap⟩
  intro i hi
  have := congrArg (fun l => l[i]?) htake
  simp only [List.getElem?_take, if_pos hi] at this
  exact this

theorem pop_returns_last_element_witness :
    (⟨⟨0, false⟩, [some 7, some 8, none], 3, 2⟩ : tsqueue Nat).wf ∧
      (⟨⟨0, false⟩, [some 7, some 8, none], 3, 2⟩ : tsqueue Nat).unlocked ∧
      (⟨[false], [true, false]⟩ : schedule).fair ∧ 0 < 2 ∧
      ∃ q' x, pop ⟨[false], [true, false]⟩ (⟨⟨0, false⟩, [some 7, some 8, none], 3, 2⟩ :
            tsqueue Nat) (some 4) = .returned (q', some x) ∧
        [some 7, some 8, none][2 - 1]? = some (some x) ∧ q'.storage_size = 2 - 1 ∧
        (∀ i, i < 2 - 1 → q'.storage[i]? = [some 7, some 8, none][i]?) ∧
        q'.storage_capacity = 3 :=
  ⟨by decide, by decide, by decide, by decide,
    pop_returns_last_element ⟨[false], [true, false]⟩
      (⟨⟨0, false⟩, [some 7, some 8, none], 3, 2⟩ : tsqueue Nat) (some 4) (by decide)
      (by decide) (by decide) (by decide)⟩

/-! ### C5 -/

/-- C5: for every container with count = 0 (lock free), whatever its capacity and buffer and
whatever the output slot held before, `pop` returns with the output absent, count still 0
and capacity and buffer unchanged. -/
theorem pop_on_empty_reports_no_value (g : schedule) (q : tsqueue α) (out : Option α)
    (hun : q.unlocked) (hg : g.fair) (hzero : q.storage_size = 0) :
    ∃ q', pop g q out = .returned (q', none) ∧ q'.storage_size = 0 ∧
      q'.storage_capacity = q.storage_capacity ∧ q'.storage = q.storage :=
  ⟨{ q with spinlock := ⟨0, false⟩ }, pop_empty_spec g q out hun hg hzero, hzero, rfl, rfl⟩

theorem pop_on_empty_reports_no_value_witness :
    (⟨⟨0, false⟩, [none, none], 2, 0⟩ : tsqueue Nat).unlocked ∧
      (⟨[false], [false]⟩ : schedule).fair ∧
      (⟨⟨0, false⟩, [none, none], 2, 0⟩ : tsqueue Nat).storage_size = 0 ∧
      ∃ q', pop ⟨[false], [false]⟩ (⟨⟨0, false⟩, [none, none], 2, 0⟩ : tsqueue Nat) (some 5) =
          .returned (q', none) ∧
        q'.storage_size = 0 ∧ q'.storage_capacity = 2 ∧ q'.storage = [none, none] :=
  ⟨by decide, by decide, by decide,
    pop_on_empty_reports_no_value ⟨[false], [false]⟩
      (⟨⟨0, false⟩, [none, none], 2, 0⟩ : tsqueue Nat) (some 5) (by decide) (by decide)
      (by decide)⟩

/-! ### C8 -/

/-- C8: for every container state (lock free), `clear()` returns with count 0 and the capacity
it had before the call; `was_size()` then returns 0, `was_empty()` returns true and
`was_capacity()` returns the old capacity, each leaving the container as it is. -/
theorem clear_resets_size_keeps_capacity [element α] (g g' : schedule) (q : tsqueue α)
    (hun : q.unlocked) (hg : g.fair) (hg' : g'.fair) :
    ∃ q', clear g q = .returned (q', ()) ∧ q'.storage_size = 0 ∧
      q'.storage_capacity = q.storage_capacity ∧
      was_size g' q' = .returned (q', 0) ∧ was_empty g' q' = .returned (q', true) ∧
      was_capacity g' q' = .returned (q', q.storage_capacity) := by
  refine ⟨_, clear_returned g q hun hg, rfl, rfl, ?_, ?_, ?_⟩
  · exact was_size_returned g' _ rfl hg'
  · exact was_empty_returned g' _ rfl hg'
  · exact was_capacity_returned g' _ rfl hg'

theorem clear_resets_size_keeps_capacity_witness :
    (⟨⟨0, false⟩, [some 7, some 8, none], 3, 2⟩ : tsqueue Nat).unlocked ∧
      (⟨[false], [true, false]⟩ : schedule).fair ∧ (⟨[true, false], [false]⟩ : schedule).fair ∧
      ∃ q', @clear Nat ⟨false⟩ ⟨[false], [true, false]⟩
            ⟨⟨0, false⟩, [some 7, some 8, none], 3, 2⟩ = .returned (q', ()) ∧
        q'.storage_size = 0 ∧ q'.storage_capacity = 3 ∧
        was_size ⟨[true, false], [false]⟩ q' = .returned (q', 0) ∧
        was_empty ⟨[true, false], [false]⟩ q' = .returned (q', true) ∧
        was_capacity ⟨[true, false], [false]⟩ q' = .returned (q', 3) :=
  ⟨by decide, by decide, by decide,
    @clear_resets_size_keeps_capacity Nat ⟨false⟩ ⟨[false], [true, false]⟩
      ⟨[true, false], [false]⟩ ⟨⟨0, false⟩, [some 7, some 8, none], 3, 2⟩ (by decide)
      (by decide) (by decide)⟩

/-! ### C7 -/

/-- Whether a guarded call has returned or is still spinning, the container is the one before
the call or the one the body produced, up to the state of the lock. -/
theorem after_scoped_lock (g : schedule) (q : tsqueue α) (body : tsqueue α → tsqueue α × β) :
    (∃ l, after (scoped_lock g q body) = { q with spinlock := l }) ∨
      ∃ l l', after (scoped_lock g q body) =
        { (body { q with spinlock := l }).1 with spinlock := l' } := by
  unfold scoped_lock
  cases q.spinlock.lock g.acquire with
  | spinning l => exact Or.inl ⟨l, rfl⟩
  | returned l =>
    right
    simp only
    cases (body { q with spinlock := l }).1.spinlock.unlock g.release with
    | spinning l' => exact ⟨l, l', rfl⟩
    | returned l' => exact ⟨l, l', rfl⟩

theorem after_push_le [element α] (g : schedule) (q : tsqueue α) (v : α)
    (h : q.storage_size ≤ q.storage_capacity) :
    (after (push g q v)).storage_size ≤ (after (push g q v)).storage_capacity := by
  unfold push
  rcases after_scoped_lock g q _ with ⟨l, hl⟩ | ⟨l, l', hl⟩
  · rw [hl]
    exact h
  · rw [hl]
    by_cases hgrow : q.storage_size + 1 > q.storage_capacity
    · simp [hgrow]
    · simp only [hgrow, if_false]
      show q.storage_size + 1 ≤ q.storage_capacity
      omega

theorem after_pop_le (g : schedule) (q : tsqueue α) (out : Option α)
    (h : q.storage_size ≤ q.storage_capacity) :
    (after (pop g q out)).storage_size ≤ (after (pop g q out)).storage_capacity := by
  unfold pop
  rcases after_scoped_lock g q _ with ⟨l, hl⟩ | ⟨l, l', hl⟩
  · rw [hl]
    exact h
  · rw [hl]
    by_cases hz : q.storage_size = 0
    · simp only [hz, if_true]
      exact Nat.zero_le _
    · simp only [hz, if_false]
      show q.storage_size - 1 ≤ q.storage_capacity
      omega

theorem after_clear_le [element α] (g : schedule) (q : tsqueue α)
    (h : q.storage_size ≤ q.storage_capacity) :
    (after (clear g q)).storage_size ≤ (after (clear g q)).storage_capacity := by
  unfold clear
  rcases after_scoped_lock g q _ with ⟨l, hl⟩ | ⟨l, l', hl⟩
  · rw [hl]
    exact h
  · rw [hl]
    exact Nat.zero_le _

theorem apply_le [element α] (g : schedule) (c : call α) (q : tsqueue α)
    (r : tsqueue α × List (Option α)) (h : q.storage_size ≤ q.storage_capacity)
    (hr : apply g c q = .returned r) : r.1.storage_size ≤ r.1.storage_capacity := by
  cases c with
  | push v =>
    have := after_push_le g q v h
    unfold apply at hr
    simp only at hr
    split at hr
    · next r' heq =>
      rw [heq] at this
      cases hr
      exact this
    · cases hr
  | pop out =>
    have := after_pop_le g q out h
    unfold apply at hr
    simp only at hr
    split at hr
    · next r' heq =>
      rw [heq] at this
      cases hr
      exact this
    · cases hr
  | clear =>
    have := after_clear_le g q h
    unfold apply at hr
    simp only at hr
    split at hr
    · next r' heq =>
      rw [heq] at this
      cases hr
      exact this
    · cases hr

theorem states_le [element α] (calls : List (schedule × call α)) (q₀ : tsqueue α)
    (h : q₀.storage_size ≤ q₀.storage_capacity) :
    ∀ q ∈ states calls q₀, q.storage_size ≤ q.storage_capacity := by
  induction calls generalizing q₀ with
  | nil =>
    intro q hq
    simp only [states, List.mem_singleton] at hq
    rw [hq]
    exact h
  | cons c rest ih =>
    obtain ⟨g, c⟩ := c
    intro q hq
    simp only [states] at hq
    split at hq
    · simp only [List.mem_singleton] at hq
      rw [hq]
      exact h
    · next r hr =>
      rcases List.mem_cons.1 hq with rfl | hq'
      · exact h
      · exact ih r.1 (apply_le g c q₀ r h hr) q hq'

/-- C7: count ≤ capacity is an invariant of the container. It holds for the freshly
constructed container; `push`, `pop` and `clear` preserve it, under every schedule, whether
the call has returned or is still spinning; hence it holds in every container that a finite
sequence of operations on the fresh container goes through. -/
theorem size_le_capacity_invariant [element α] :
    (init : tsqueue α).storage_size ≤ (init : tsqueue α).storage_capacity ∧
      (∀ (g : schedule) (q : tsqueue α) (v : α), q.storage_size ≤ q.storage_capacity →
        (after (push g q v)).storage_size ≤ (after (push g q v)).storage_capacity) ∧
      (∀ (g : schedule) (q : tsqueue α) (out : Option α),
        q.storage_size ≤ q.storage_capacity →
        (after (pop g q out)).storage_size ≤ (after (pop g q out)).storage_capacity) ∧
      (∀ (g : schedule) (q : tsqueue α), q.storage_size ≤ q.storage_capacity →
        (after (clear g q)).storage_size ≤ (after (clear g q)).storage_capacity) ∧
      (∀ (calls : List (schedule × call α)), ∀ q ∈ states calls (init : tsqueue α),
        q.storage_size ≤ q.storage_capacity) := by
  refine ⟨le_refl _, after_push_le, after_pop_le, after_clear_le, ?_⟩
  intro calls
  exact states_le calls init (le_refl _)

theorem size_le_capacity_invariant_witness :
    (⟨⟨0, false⟩, [some 7, some 8], 2, 2⟩ : tsqueue Nat).storage_size ≤
        (⟨⟨0, false⟩, [some 7, some 8], 2, 2⟩ : tsqueue Nat).storage_capacity ∧
      (after (@push Nat ⟨false⟩ ⟨[false], [false]⟩ ⟨⟨0, false⟩, [some 7, some 8], 2, 2⟩
          9)).storage_size ≤
        (after (@push Nat ⟨false⟩ ⟨[false], [false]⟩ ⟨⟨0, false⟩, [some 7, some 8], 2, 2⟩
          9)).storage_capacity :=
  ⟨by decide,
    (@size_le_capacity_invariant Nat ⟨false⟩).2.1 ⟨[false], [false]⟩
      ⟨⟨0, false⟩, [some 7, some 8], 2, 2⟩ 9 (by decide)⟩

/-! ### C6 -/

/-- One operation on a well-formed container with a free lock, under a fair schedule: it
returns, the container stays well-formed with a free lock, and the new capacity is the
larger of the old capacity and the new count. -/
theorem apply_spec [element α] (g : schedule) (c : call α) (q : tsqueue α) (hwf : q.wf)
    (hun : q.unlocked) (hg : g.fair) :
    ∃ r, apply g c q = .returned r ∧ r.1.wf ∧ r.1.unlocked ∧
      r.1.storage_capacity = max q.storage_capacity r.1.storage_size := by
  cases c with
  | push v =>
    obtain ⟨q', hpush, hwf', hl, hsize, hcap, -⟩ := push_spec g q v hwf hun hg
    refine ⟨(q', []), ?_, hwf', ?_, ?_⟩
    · simp [apply, hpush]
    · show q'.spinlock.atomic_lock = 0
      rw [hl]
    · show q'.storage_capacity = max q.storage_capacity q'.storage_size
      rw [hcap, hsize]
      have := hwf.2.1
      split_ifs <;> omega
  | pop out =>
    by_cases hz : q.storage_size = 0
    · refine ⟨({ q with spinlock := ⟨0, false⟩ }, [none]), ?_, hwf, rfl, ?_⟩
      · simp [apply, pop_empty_spec g q out hun hg hz]
      · show q.storage_capacity = max q.storage_capacity q.storage_size
        omega
    · obtain ⟨q', x, hpop, hwf', hl, hsize, hcap, -, -⟩ :=
        pop_spec g q out hwf hun hg (Nat.pos_of_ne_zero hz)
      refine ⟨(q', [some x]), ?_, hwf', ?_, ?_⟩
      · simp [apply, hpop]
      · show q'.spinlock.atomic_lock = 0
        rw [hl]
      · show q'.storage_capacity = max q.storage_capacity q'.storage_size
        have := hwf.2.1
        omega
  | clear =>
    obtain ⟨q', hclear, hwf', hl, hsize, hcap⟩ := clear_spec g q hwf hun hg
    refine ⟨(q', []), ?_, hwf', ?_, ?_⟩
    · simp [apply, hclear]
    · show q'.spinlock.atomic_lock = 0
      rw [hl]
    · show q'.storage_capacity = max q.storage_capacity q'.storage_size
      omega

theorem head?_states [element α] (calls : List (schedule × call α)) (q : tsqueue α) :
    (states calls q).head? = some q := by
  cases calls with
  | nil => rfl
  | cons c rest =>
    obtain ⟨g, c⟩ := c
    simp only [states]
    split <;> rfl

theorem le_high_water_states [element α] (calls : List (schedule × call α)) (q : tsqueue α) :
    q.storage_size ≤ high_water (states calls q) := by
  cases calls with
  | nil => simp [states, high_water]
  | cons c rest =>
    obtain ⟨g, c⟩ := c
    simp only [states]
    split <;> simp [high_water]

theorem run_spec [element α] (calls : List (schedule × call α)) (q₀ : tsqueue α)
    (hwf : q₀.wf) (hun : q₀.unlocked) (hfair : ∀ c ∈ calls, c.1.fair) :
    ∃ q outs, run calls q₀ = .returned (q, outs) ∧
      (states calls q₀).getLast? = some q ∧
      (states calls q₀).length = calls.length + 1 ∧
      q.storage_capacity = max q₀.storage_capacity (high_water (states calls q₀)) ∧
      List.Chain' (fun a b : tsqueue α => a.storage_capacity ≤ b.storage_capacity)
        (states calls q₀) := by
  induction calls generalizing q₀ with
  | nil =>
    refine ⟨q₀, [], rfl, rfl, rfl, ?_, ?_⟩
    · have := hwf.2.1
      simp [states, high_water]
      omega
    · simp [states]
  | cons c rest ih =>
    obtain ⟨g, c⟩ := c
    obtain ⟨r, hr, hwf', hun', hcap⟩ :=
      apply_spec g c q₀ hwf hun (hfair (g, c) (List.mem_cons_self _ _))
    obtain ⟨q, outs, hrun, hlast, hlen, hmax, hchain⟩ :=
      ih r.1 hwf' hun' (fun c' hc' => hfair c' (List.mem_cons_of_mem _ hc'))
    have hhead := head?_states rest r.1
    have hle := le_high_water_states rest r.1
    have hst : states ((g, c) :: rest) q₀ = q₀ :: states rest r.1 := by
      simp [states, hr]
    refine ⟨q, r.2 ++ outs, ?_, ?_, ?_, ?_, ?_⟩
    · simp [run, hr, hrun]
    · rw [hst, List.getLast?_cons, hlast]
      rfl
    · rw [hst, List.length_cons, hlen, List.length_cons]
    · rw [hst, hmax, hcap]
      have h0 := hwf.2.1
      have hhw : high_water (q₀ :: states rest r.1) =
          max q₀.storage_size (high_water (states rest r.1)) := by
        simp [high_water]
      rw [hhw]
      omega
    · rw [hst]
      apply List.Chain'.cons' hchain
      intro y hy
      rw [hhead] at hy
      cases hy
      show q₀.storage_capacity ≤ r.1.storage_capacity
      rw [hcap]
      exact le_max_left _ _

/-- C6: capacity is the historical high-water mark of count. Every finite sequence of `push`,
`pop` and `clear` (fair schedules) on the initially empty container (count 0, capacity 0)
runs to completion, the capacity after it equals the largest count among the containers
the sequence went through, and the capacity never decreases from one container to the next. -/
theorem capacity_is_high_water_mark [element α] (calls : List (schedule × call α))
    (hfair : ∀ c ∈ calls, c.1.fair) :
    ∃ q outs, run calls (init : tsqueue α) = .returned (q, outs) ∧
      (states calls (init : tsqueue α)).getLast? = some q ∧
      (states calls (init : tsqueue α)).length = calls.length + 1 ∧
      q.storage_capacity = high_water (states calls (init : tsqueue α)) ∧
      List.Chain' (fun a b : tsqueue α => a.storage_capacity ≤ b.storage_capacity)
        (states calls (init : tsqueue α)) := by
  obtain ⟨q, outs, hrun, hlast, hlen, hmax, hchain⟩ :=
    run_spec calls (init : tsqueue α) ⟨rfl, le_refl _, rfl⟩ rfl hfair
  refine ⟨q, outs, hrun, hlast, hlen, ?_, hchain⟩
  rw [hmax]
  exact Nat.max_eq_right (Nat.zero_le _)

theorem capacity_is_high_water_mark_witness :
    (∀ c ∈ [((⟨[false], [false]⟩ : schedule), call.push 1), (⟨[true, false], [false]⟩, call.push 2),
        (⟨[false], [true, false]⟩, call.pop none), (⟨[false], [false]⟩, call.push 3)],
        c.1.fair) ∧
      (states [((⟨[false], [false]⟩ : schedule), call.push 1),
        (⟨[true, false], [false]⟩, call.push 2), (⟨[false], [true, false]⟩, call.pop none),
        (⟨[false], [false]⟩, call.push 3)] (init : tsqueue Nat)).map
          (fun q => (q.storage_size, q.storage_capacity)) =
        [(0, 0), (1, 1), (2, 2), (1, 2), (2, 2)] ∧
      ∃ q outs, run [((⟨[false], [false]⟩ : schedule), call.push 1),
          (⟨[true, false], [false]⟩, call.push 2), (⟨[false], [true, false]⟩, call.pop none),
          (⟨[false], [false]⟩, call.push 3)] (init : tsqueue Nat) = .returned (q, outs) ∧
        (states [((⟨[false], [false]⟩ : schedule), call.push 1),
          (⟨[true, false], [false]⟩, call.push 2), (⟨[false], [true, false]⟩, call.pop none),
          (⟨[false], [false]⟩, call.push 3)] (init : tsqueue Nat)).getLast? = some q ∧
        (states [((⟨[false], [false]⟩ : schedule), call.push 1),
          (⟨[true, false], [false]⟩, call.push 2), (⟨[false], [true, false]⟩, call.pop none),
          (⟨[false], [false]⟩, call.push 3)] (init : tsqueue Nat)).length = 4 + 1 ∧
        q.storage_capacity = high_water (states [((⟨[false], [false]⟩ : schedule), call.push 1),
          (⟨[true, false], [false]⟩, call.push 2), (⟨[false], [true, false]⟩, call.pop none),
          (⟨[false], [false]⟩, call.push 3)] (init : tsqueue Nat)) ∧
        List.Chain' (fun a b : tsqueue Nat => a.storage_capacity ≤ b.storage_capacity)
          (states [((⟨[false], [false]⟩ : schedule), call.push 1),
            (⟨[true, false], [false]⟩, call.push 2), (⟨[false], [true, false]⟩, call.pop none),
            (⟨[false], [false]⟩, call.push 3)] (init : tsqueue Nat)) :=
  ⟨by decide, by decide,
    capacity_is_high_water_mark
      [((⟨[false], [false]⟩ : schedule), call.push 1), (⟨[true, false], [false]⟩, call.push 2),
        (⟨[false], [true, false]⟩, call.pop none), (⟨[false], [false]⟩, call.push 3)]
      (by decide)⟩

/-! ### C2 -/

theorem push_elements [element α] (g : schedule) (q : tsqueue α) (v : α) (hwf : q.wf)
    (hun : q.unlocked) (hg : g.fair) :
    ∃ q', push g q v = .returned (q', ()) ∧ q'.wf ∧ q'.unlocked ∧
      q'.elements = q.elements ++ [v] := by
  obtain ⟨q', hpush, hwf', hl, hsize, -, htake⟩ := push_spec g q v hwf hun hg
  refine ⟨q', hpush, hwf', ?_, ?_⟩
  · show q'.spinlock.atomic_lock = 0
    rw [hl]
  · unfold elements
    rw [hsize, htake, List.reduceOption_append]
    rfl

theorem pop_elements (g : schedule) (q : tsqueue α) (out : Option α) (hwf : q.wf)
    (hun : q.unlocked) (hg : g.fair) (hpos : 0 < q.storage_size) :
    ∃ q' x, pop g q out = .returned (q', some x) ∧ q'.wf ∧ q'.unlocked ∧
      q.elements = q'.elements ++ [x] := by
  obtain ⟨q', x, hpop, hwf', hl, hsize, -, hlast, htake⟩ := pop_spec g q out hwf hun hg hpos
  refine ⟨q', x, hpop, hwf', ?_, ?_⟩
  · show q'.spinlock.atomic_lock = 0
    rw [hl]
  · have hs : q.storage_size = (q.storage_size - 1) + 1 := by omega
    unfold elements
    rw [hsize, htake]
    conv_lhs => rw [hs, List.take_succ, hlast]
    rw [List.reduceOption_append]
    rfl

theorem run_append [element α] (a b : List (schedule × call α)) (q q₁ q₂ : tsqueue α)
    (o₁ o₂ : List (Option α)) (ha : run a q = .returned (q₁, o₁))
    (hb : run b q₁ = .returned (q₂, o₂)) : run (a ++ b) q = .returned (q₂, o₁ ++ o₂) := by
  induction a generalizing q o₁ with
  | nil =>
    simp only [run, Outcome.returned.injEq, Prod.mk.injEq] at ha
    obtain ⟨rfl, rfl⟩ := ha
    simpa using hb
  | cons c rest ih =>
    obtain ⟨g, c⟩ := c
    simp only [run] at ha
    split at ha
    · cases ha
    · next r hr =>
      split at ha
      · cases ha
      · next r' hr' =>
        simp only [Outcome.returned.injEq, Prod.mk.injEq] at ha
        obtain ⟨rfl, rfl⟩ := ha
        have := ih r.1 r'.2 hr'
        rw [List.cons_append, run, hr]
        simp only
        rw [this, List.append_assoc]

theorem run_pushes [element α] (pushes : List (schedule × α)) (q : tsqueue α) (hwf : q.wf)
    (hun : q.unlocked) (hfair : ∀ p ∈ pushes, p.1.fair) :
    ∃ q', run (pushes.map (fun p => (p.1, call.push p.2))) q = .returned (q', []) ∧ q'.wf ∧
      q'.unlocked ∧ q'.elements = q.elements ++ pushes.map Prod.snd := by
  induction pushes generalizing q with
  | nil => exact ⟨q, rfl, hwf, hun, by simp⟩
  | cons p rest ih =>
    obtain ⟨g, v⟩ := p
    obtain ⟨q₁, hpush, hwf₁, hun₁, hel₁⟩ :=
      push_elements g q v hwf hun (hfair (g, v) (List.mem_cons_self _ _))
    obtain ⟨q', hrun, hwf', hun', hel'⟩ :=
      ih q₁ hwf₁ hun₁ (fun p hp => hfair p (List.mem_cons_of_mem _ hp))
    refine ⟨q', ?_, hwf', hun', ?_⟩
    · simp [run, apply, hpush, hrun]
    · rw [hel', hel₁]
      simp

theorem run_pops [element α] (pops : List (schedule × Option α)) (q : tsqueue α)
    (xs ys : List α) (hwf : q.wf) (hun : q.unlocked) (hfair : ∀ p ∈ pops, p.1.fair)
    (hel : q.elements = xs ++ ys) (hlen : ys.length = pops.length) :
    ∃ q', run (pops.map (fun p => (p.1, call.pop p.2))) q =
        .returned (q', ys.reverse.map some) ∧ q'.wf ∧ q'.unlocked ∧ q'.elements = xs := by
  induction pops generalizing q ys with
  | nil =>
    have : ys = [] := List.length_eq_zero.1 hlen
    subst this
    exact ⟨q, rfl, hwf, hun, by simpa using hel⟩
  | cons p rest ih =>
    obtain ⟨g, out⟩ := p
    have hne : ys ≠ [] := by
      intro h
      rw [h] at hlen
      simp at hlen
    obtain ⟨ys₀, y, rfl⟩ := (List.eq_nil_or_concat ys).resolve_left hne
    have hsz := length_elements q hwf
    have hpos : 0 < q.storage_size := by
      rw [← hsz, hel]
      simp
    obtain ⟨q₁, x, hpop, hwf₁, hun₁, hel₁⟩ :=
      pop_elements g q out hwf hun (hfair (g, out) (List.mem_cons_self _ _)) hpos
    have heq : q₁.elements ++ [x] = (xs ++ ys₀) ++ [y] := by
      rw [← hel₁, hel]
      simp
    obtain ⟨h1, h2⟩ := List.append_inj' heq rfl
    have hxy : x = y := by simpa using h2
    obtain ⟨q', hrun, hwf', hun', hel'⟩ :=
      ih q₁ ys₀ hwf₁ hun₁ (fun p hp => hfair p (List.mem_cons_of_mem _ hp)) h1
        (by simpa using hlen)
    refine ⟨q', ?_, hwf', hun', hel'⟩
    simp [run, apply, hpop, hrun, hxy]

/-- C2: the container is last-in-first-out. For every well-formed container `q` (lock free)
and every list of values, pushing the values in order and then popping as many times (each
call under a fair schedule, the output slot holding anything before each pop) returns the
values in reverse order, each as a present value, and leaves the live contents and the
count equal to those of `q`. -/
theorem push_then_pop_is_lifo [element α] (q : tsqueue α) (pushes : List (schedule × α))
    (pops : List (schedule × Option α)) (hwf : q.wf) (hun : q.unlocked)
    (hlen : pops.length = pushes.length) (hpush : ∀ p ∈ pushes, p.1.fair)
    (hpop : ∀ p ∈ pops, p.1.fair) :
    ∃ q', run (pushes.map (fun p => (p.1, call.push p.2)) ++
          pops.map (fun p => (p.1, call.pop p.2))) q =
        .returned (q', ((pushes.map Prod.snd).reverse).map some) ∧
      q'.elements = q.elements ∧ q'.storage_size = q.storage_size := by
  obtain ⟨q₁, hrun₁, hwf₁, hun₁, hel₁⟩ := run_pushes pushes q hwf hun hpush
  obtain ⟨q', hrun', hwf', -, hel'⟩ :=
    run_pops pops q₁ q.elements (pushes.map Prod.snd) hwf₁ hun₁ hpop hel₁
      (by rw [List.length_map, hlen])
  refine ⟨q', ?_, hel', ?_⟩
  · have := run_append _ _ q q₁ q' _ _ hrun₁ hrun'
    simpa using this
  · rw [← length_elements q' hwf', ← length_elements q hwf, hel']

theorem push_then_pop_is_lifo_witness :
    (init : tsqueue Nat).wf ∧ (init : tsqueue Nat).unlocked ∧
      ([(⟨[false], [false]⟩, none), (⟨[true, false], [false]⟩, some 9),
          (⟨[false], [false]⟩, none)] : List (schedule × Option Nat)).length =
        ([(⟨[false], [false]⟩, 10), (⟨[false], [true, false]⟩, 20),
          (⟨[false], [false]⟩, 30)] : List (schedule × Nat)).length ∧
      ∃ q', run ([((⟨[false], [false]⟩ : schedule), 10), (⟨[false], [true, false]⟩, 20),
              (⟨[false], [false]⟩, 30)].map (fun p => (p.1, call.push p.2)) ++
            [((⟨[false], [false]⟩ : schedule), (none : Option Nat)),
              (⟨[true, false], [false]⟩, some 9),
              (⟨[false], [false]⟩, none)].map (fun p => (p.1, call.pop p.2)))
          (init : tsqueue Nat) =
          .returned (q', (([((⟨[false], [false]⟩ : schedule), 10),
            (⟨[false], [true, false]⟩, 20),
            (⟨[false], [false]⟩, 30)].map Prod.snd).reverse).map some) ∧
        q'.elements = (init : tsqueue Nat).elements ∧
        q'.storage_size = (init : tsqueue Nat).storage_size :=
  ⟨by decide, by decide, by decide,
    push_then_pop_is_lifo (init : tsqueue Nat)
      [(⟨[false], [false]⟩, 10), (⟨[false], [true, false]⟩, 20), (⟨[false], [false]⟩, 30)]
      [(⟨[false], [false]⟩, none), (⟨[true, false], [false]⟩, some 9),
        (⟨[false], [false]⟩, none)]
      (by decide) (by decide) (by decide) (by decide) (by decide)⟩

end tsqueue

end spl

namespace spl

namespace shared_spinlock

/-! ### Loops that keep spinning -/

theorem lock_spinning (sched : List Bool) (s : shared_spinlock) (h : s.atomic_lock ≠ 0) :
    lock sched s = .spinning ⟨s.atomic_lock, true⟩ := by
  have := lock_loop_spinning sched s.test_and_set.2 (by simpa [test_and_set] using h)
  simpa [lock, test_and_set] using this

theorem lock_shared_spinning (sched : List Bool) (s : shared_spinlock)
    (h : (s.atomic_lock = 0 ∧ s.write_pending = true) ∨ READ_MAX ≤ s.atomic_lock) :
    lock_shared sched s = .spinning s := by
  induction sched with
  | nil => rfl
  | cons b sched ih =>
    unfold lock_shared
    simp only [test]
    rcases h with h | h
    · rw [if_pos h]
      exact ih
    · have h1 : ¬ (s.atomic_lock = 0 ∧ s.write_pending = true) := by
        intro h0
        rw [h0.1] at h
        revert h
        decide
      rw [if_neg h1, if_neg (by omega)]
      exact ih

theorem unlock_shared_spinning (sched : List Bool) (s : shared_spinlock)
    (h : READ_MAX < s.atomic_lock) : unlock_shared sched s = .spinning s := by
  induction sched with
  | nil => rfl
  | cons b sched ih =>
    unfold unlock_shared
    simp only
    rw [if_neg (by omega), if_neg (by omega)]
    exact ih

theorem unlock_shared_step (b : Bool) (sched : List Bool) (s : shared_spinlock)
    (hle : s.atomic_lock ≤ READ_MAX) (hb : b = false ∨ s.atomic_lock = 0) :
    unlock_shared (b :: sched) s = .returned ⟨s.atomic_lock - 1, s.write_pending⟩ := by
  unfold unlock_shared
  simp only
  by_cases h0 : s.atomic_lock = 0
  · rw [if_pos h0]
    cases s
    simp_all
  · have hb' : b = false := hb.resolve_right h0
    subst hb'
    have hm : (s.atomic_lock + 4294967295) % 4294967296 = s.atomic_lock - 1 := by
      simp only [READ_MAX, WRITE_MODE] at hle
      omega
    rw [if_neg h0, if_pos hle]
    simp [compare_exchange_weak, compare_exchange_strong]
    exact hm

/-! ### C11 -/

/-- C11, as stated, fails: in the state with counter 0 and the writer-intent flag set (a writer
has announced itself and not yet acquired) `try_lock` returns true and takes the lock. -/
theorem try_lock_succeeds_under_pending_intent :
    (⟨0, true⟩ : shared_spinlock).write_pending = true ∧
      try_lock ⟨0, true⟩ = (true, ⟨4294967295, true⟩) := by
  decide

/-- C11, amended: `try_lock` returns false on contention with a holder, whatever the
writer-intent flag says. For every lock state in which the flag is set (counter `c`),
`try_lock` returns false exactly when `c` is non-zero; and for every counter its result is
the same with the flag set as with the flag clear. -/
theorem try_lock_fails_only_on_holder (c : Nat) :
    ((try_lock ⟨c, true⟩).1 = false ↔ c ≠ 0) ∧
      (try_lock ⟨c, false⟩).1 = (try_lock ⟨c, true⟩).1 := by
  rcases try_lock_cases ⟨c, true⟩ with ⟨h0, h⟩ | ⟨h0, h⟩
  · rw [h]
    rcases try_lock_cases ⟨c, false⟩ with ⟨_, h'⟩ | ⟨h0', _⟩
    · rw [h']
      have : c = 0 := h0
      simp [this]
    · exact absurd h0 h0'
  · rw [h]
    rcases try_lock_cases ⟨c, false⟩ with ⟨h0', _⟩ | ⟨_, h'⟩
    · exact absurd h0' h0
    · rw [h']
      have : c ≠ 0 := h0
      simp [this]

/-! ### C12 -/

/-- C12: for every lock state, `try_lock` (run without interference) returns true if and only
if the counter is 0; when it returns true the counter becomes MAX, when it returns false the
counter is unchanged, and the writer-intent flag is unchanged in both cases. -/
theorem try_lock_succeeds_iff_unlocked (s : shared_spinlock) :
    (s.try_lock.1 = true ↔ s.atomic_lock = 0) ∧
      (s.try_lock.1 = true → s.try_lock.2 = ⟨WRITE_MODE, s.write_pending⟩) ∧
      (s.try_lock.1 = false → s.try_lock.2 = s) := by
  rcases try_lock_cases s with ⟨h0, h⟩ | ⟨h0, h⟩
  · rw [h]
    simp [h0]
  · rw [h]
    simp [h0]

/-! ### C13 -/

/-- C13: for every lock state (counter `c`, flag `f`), `try_lock_shared` (run without
interference) returns false and changes nothing when (`c = 0` and `f` is set) or
`c ≥ MAX-1`; otherwise it returns true and sets the counter to `c + 1` with `f` unchanged.
In particular, for `1 ≤ c < MAX-1` the result and the new counter are the same with the flag
set as with the flag clear. -/
theorem try_lock_shared_cases (s : shared_spinlock) :
    (((s.atomic_lock = 0 ∧ s.write_pending = true) ∨ WRITE_MODE - 1 ≤ s.atomic_lock) →
        s.try_lock_shared = (false, s)) ∧
      (¬ ((s.atomic_lock = 0 ∧ s.write_pending = true) ∨ WRITE_MODE - 1 ≤ s.atomic_lock) →
        s.try_lock_shared = (true, ⟨s.atomic_lock + 1, s.write_pending⟩)) ∧
      (1 ≤ s.atomic_lock → s.atomic_lock < WRITE_MODE - 1 →
        try_lock_shared ⟨s.atomic_lock, true⟩ = (true, ⟨s.atomic_lock + 1, true⟩) ∧
          try_lock_shared ⟨s.atomic_lock, false⟩ = (true, ⟨s.atomic_lock + 1, false⟩)) := by
  have key : ∀ t : shared_spinlock, ¬ (t.atomic_lock = 0 ∧ t.write_pending = true) →
      t.atomic_lock < WRITE_MODE - 1 →
      t.try_lock_shared = (true, ⟨t.atomic_lock + 1, t.write_pending⟩) := by
    intro t h1 h2
    have hm : (t.atomic_lock + 1) % 4294967296 = t.atomic_lock + 1 := by
      simp only [WRITE_MODE] at h2
      omega
    unfold try_lock_shared
    simp only [test, READ_MAX]
    rw [if_neg h1, if_pos h2]
    simp only [compare_exchange_strong, if_true]
    norm_num
    simp only [WRITE_MODE] at h2
    omega
  refine ⟨?_, ?_, ?_⟩
  · intro h
    unfold try_lock_shared
    simp only [test, READ_MAX]
    rcases h with h | h
    · rw [if_pos h]
    · have h1 : ¬ (s.atomic_lock = 0 ∧ s.write_pending = true) := by
        intro h0
        rw [h0.1] at h
        revert h
        decide
      rw [if_neg h1, if_neg (by omega)]
  · intro h
    push_neg at h
    exact key s (fun h0 => h.1 h0.1 h0.2) h.2
  · intro h1 h2
    exact ⟨key ⟨s.atomic_lock, true⟩ (fun h0 => by have := h0.1; simp at this; omega) h2,
      key ⟨s.atomic_lock, false⟩ (fun h0 => by simp at h0) h2⟩

theorem try_lock_shared_cases_witness :
    ((((⟨0, true⟩ : shared_spinlock).atomic_lock = 0 ∧
          (⟨0, true⟩ : shared_spinlock).write_pending = true) ∨
        WRITE_MODE - 1 ≤ (⟨0, true⟩ : shared_spinlock).atomic_lock)) ∧
      try_lock_shared ⟨0, true⟩ = (false, ⟨0, true⟩) :=
  ⟨by decide, (try_lock_shared_cases ⟨0, true⟩).1 (by decide)⟩

/-! ### C14 -/

theorem lock_loop_spinning_inv (sched : List Bool) (s s' : shared_spinlock)
    (h : lock_loop sched s = .spinning s') : s' = s := by
  induction sched with
  | nil =>
    simp only [lock_loop, Outcome.spinning.injEq] at h
    exact h.symm
  | cons b sched ih =>
    by_cases h0 : s.atomic_lock = 0
    · cases b with
      | false => simp [lock_loop, h0, compare_exchange_weak, compare_exchange_strong] at h
      | true =>
        simp [lock_loop, h0, compare_exchange_weak] at h
        exact ih h
    · rw [lock_loop_spinning _ s h0] at h
      simp only [Outcome.spinning.injEq] at h
      exact h.symm

/-- C14: `lock()` first sets writer-intent and then acquires only by a transition of the
counter from 0 to MAX. Started with counter 0, under every schedule with an attempt that does
not fail spuriously, it returns with counter = MAX and writer-intent set. Started with a
counter ≠ 0 that nobody changes, after any number of iterations it is still spinning, with
writer-intent set and the counter untouched. Whenever it returns the counter was 0 and is
now MAX, and while it spins the flag is set and the counter is as it was. -/
theorem lock_acquires_from_zero_else_spins (s : shared_spinlock) :
    (s.atomic_lock = 0 → ∀ sched, false ∈ sched →
        lock sched s = .returned ⟨WRITE_MODE, true⟩) ∧
      (s.atomic_lock ≠ 0 → ∀ sched, lock sched s = .spinning ⟨s.atomic_lock, true⟩) ∧
      (∀ sched s', lock sched s = .returned s' →
        s.atomic_lock = 0 ∧ s' = ⟨WRITE_MODE, true⟩) ∧
      (∀ sched s', lock sched s = .spinning s' → s' = ⟨s.atomic_lock, true⟩) := by
  refine ⟨fun h sched hf => lock_returned sched s h hf, fun h sched => lock_spinning sched s h,
    fun sched s' h => lock_inv sched s s' h, ?_⟩
  intro sched s' h
  have := lock_loop_spinning_inv sched _ s' h
  simpa [test_and_set] using this

theorem lock_acquires_from_zero_else_spins_witness :
    (⟨0, false⟩ : shared_spinlock).atomic_lock = 0 ∧ false ∈ [true, true, false] ∧
      lock [true, true, false] ⟨0, false⟩ = .returned ⟨WRITE_MODE, true⟩ ∧
      (⟨2, false⟩ : shared_spinlock).atomic_lock ≠ 0 ∧
      lock [false, false, false] ⟨2, false⟩ = .spinning ⟨2, true⟩ :=
  ⟨rfl, by decide,
    (lock_acquires_from_zero_else_spins ⟨0, false⟩).1 rfl [true, true, false] (by decide),
    by decide,
    (lock_acquires_from_zero_else_spins ⟨2, false⟩).2.1 (by decide) [false, false, false]⟩

/-! ### C15 -/

/-- C15: for every lock state (counter `c`, flag `f`), `unlock()` returns, under every
schedule with an attempt that does not fail spuriously, with writer-intent clear and the
counter 0 if `c = MAX` and `c` otherwise; when `c ≠ MAX` it returns in its first iteration.
Consequently `lock()` followed by `unlock()` from a state with counter 0 ends in the state
(counter 0, intent clear). -/
theorem unlock_clears_intent_and_writer_state (s : shared_spinlock) :
    (∀ sched, false ∈ sched →
        unlock sched s =
          .returned ⟨if s.atomic_lock = WRITE_MODE then 0 else s.atomic_lock, false⟩) ∧
      (s.atomic_lock ≠ WRITE_MODE → ∀ b sched,
        unlock (b :: sched) s = .returned ⟨s.atomic_lock, false⟩) ∧
      (s.atomic_lock = 0 → ∀ acquire release, false ∈ acquire → false ∈ release →
        ∃ s', lock acquire s = .returned s' ∧ unlock release s' = .returned ⟨0, false⟩) := by
  refine ⟨fun sched hf => unlock_returned sched s hf, ?_, ?_⟩
  · intro h b sched
    have h' : s.clear.atomic_lock ≠ WRITE_MODE := h
    simp only [unlock, unlock_loop, ne_eq, h', not_false_eq_true, if_true]
    rfl
  · intro h acquire release ha hr
    refine ⟨⟨WRITE_MODE, true⟩, lock_returned acquire s h ha, ?_⟩
    rw [unlock_returned release _ hr]
    simp

theorem unlock_clears_intent_and_writer_state_witness :
    false ∈ [true, false] ∧
      unlock [true, false] ⟨4294967295, true⟩ =
        .returned ⟨if (⟨4294967295, true⟩ : shared_spinlock).atomic_lock = WRITE_MODE then 0
          else (⟨4294967295, true⟩ : shared_spinlock).atomic_lock, false⟩ :=
  ⟨by decide,
    (unlock_clears_intent_and_writer_state ⟨4294967295, true⟩).1 [true, false] (by decide)⟩

/-! ### C16 -/

/-- C16: `lock_shared()` joins as a reader only when allowed. Started in a state (`c`, `f`)
with `c < MAX-1` and not (`c = 0` and `f` set) it returns, under every schedule with an
attempt that does not fail spuriously, with counter `c + 1` and `f` unchanged. Started with
`c = 0` and `f` set, or with `c ≥ MAX-1` (so also with `c = MAX`), in a state nobody changes,
after any number of iterations it is still spinning and counter and flag are as they were. -/
theorem lock_shared_joins_or_spins (s : shared_spinlock) :
    (s.atomic_lock < WRITE_MODE - 1 → ¬ (s.atomic_lock = 0 ∧ s.write_pending = true) →
        ∀ sched, false ∈ sched →
          lock_shared sched s = .returned ⟨s.atomic_lock + 1, s.write_pending⟩) ∧
      (((s.atomic_lock = 0 ∧ s.write_pending = true) ∨ WRITE_MODE - 1 ≤ s.atomic_lock) →
        ∀ sched, lock_shared sched s = .spinning s) :=
  ⟨fun h1 h2 sched hf => lock_shared_returned sched s h1 h2 hf,
    fun h sched => lock_shared_spinning sched s h⟩

theorem lock_shared_joins_or_spins_witness :
    (⟨5, true⟩ : shared_spinlock).atomic_lock < WRITE_MODE - 1 ∧
      ¬ ((⟨5, true⟩ : shared_spinlock).atomic_lock = 0 ∧
        (⟨5, true⟩ : shared_spinlock).write_pending = true) ∧
      false ∈ [true, false] ∧ lock_shared [true, false] ⟨5, true⟩ = .returned ⟨5 + 1, true⟩ ∧
      lock_shared [false, false] ⟨4294967295, false⟩ = .spinning ⟨4294967295, false⟩ :=
  ⟨by decide, by decide, by decide,
    (lock_shared_joins_or_spins ⟨5, true⟩).1 (by decide) (by decide) [true, false] (by decide),
    (lock_shared_joins_or_spins ⟨4294967295, false⟩).2 (Or.inr (by decide)) [false, false]⟩

/-! ### C17 -/

/-- C17: for every lock state with counter `c ≠ MAX` (`c` a 32-bit value), `unlock_shared()`
returns, under every schedule with an attempt that does not fail spuriously, with the
counter `c - 1` when `c ≥ 1` and 0 when `c = 0` (no underflow) and the writer-intent flag
unchanged. Consequently a successful `try_lock_shared()` or `lock_shared()` followed by
`unlock_shared()` restores the state the acquisition started from. -/
theorem unlock_shared_decrements_or_absorbs (s : shared_spinlock)
    (hne : s.atomic_lock ≠ WRITE_MODE) (hrange : s.atomic_lock ≤ WRITE_MODE) :
    (∀ sched, false ∈ sched →
        unlock_shared sched s =
          .returned ⟨if s.atomic_lock = 0 then 0 else s.atomic_lock - 1, s.write_pending⟩) ∧
      (∀ s', s.try_lock_shared = (true, s') → ∀ sched, false ∈ sched →
        unlock_shared sched s' = .returned s) ∧
      (∀ acquire s', lock_shared acquire s = .returned s' → ∀ sched, false ∈ sched →
        unlock_shared sched s' = .returned s) := by
  have hle : s.atomic_lock ≤ READ_MAX := by
    simp only [READ_MAX]
    have : 0 < WRITE_MODE := by decide
    omega
  refine ⟨?_, ?_, ?_⟩
  · intro sched hf
    rw [unlock_shared_returned sched s hle hf]
    by_cases h0 : s.atomic_lock = 0
    · simp [h0]
    · simp [h0]
  · intro s' h sched hf
    obtain ⟨h1, -, rfl⟩ := try_lock_shared_inv s s' h
    rw [unlock_shared_returned sched _ (by show s.atomic_lock + 1 ≤ READ_MAX; omega) hf]
    simp
  · intro acquire s' h sched hf
    obtain ⟨h1, -, rfl⟩ := lock_shared_inv acquire s s' h
    rw [unlock_shared_returned sched _ (by show s.atomic_lock + 1 ≤ READ_MAX; omega) hf]
    simp

theorem unlock_shared_decrements_or_absorbs_witness :
    (⟨0, true⟩ : shared_spinlock).atomic_lock ≠ WRITE_MODE ∧
      (⟨0, true⟩ : shared_spinlock).atomic_lock ≤ WRITE_MODE ∧ false ∈ [true, false] ∧
      unlock_shared [true, false] ⟨0, true⟩ =
        .returned ⟨if (⟨0, true⟩ : shared_spinlock).atomic_lock = 0 then 0
          else (⟨0, true⟩ : shared_spinlock).atomic_lock - 1, true⟩ :=
  ⟨by decide, by decide, by decide,
    (unlock_shared_decrements_or_absorbs ⟨0, true⟩ (by decide) (by decide)).1 [true, false]
      (by decide)⟩

/-! ### C20 -/

/-- C20: an unmatched `unlock_shared()` on an exclusively held lock is not absorbed. Started
with counter = MAX in a state nobody changes, after any number of iterations it is still
spinning and counter and flag are as they were. For every other starting counter (a 32-bit
value) it returns in the first iteration whose compare-and-swap does not fail spuriously,
and in the first iteration of all when the counter is 0. -/
theorem unlock_shared_spins_on_writer_state (s : shared_spinlock) :
    (s.atomic_lock = WRITE_MODE → ∀ sched, unlock_shared sched s = .spinning s) ∧
      (s.atomic_lock ≠ WRITE_MODE → s.atomic_lock ≤ WRITE_MODE → ∀ sched,
        unlock_shared (false :: sched) s =
          .returned ⟨s.atomic_lock - 1, s.write_pending⟩) ∧
      (s.atomic_lock = 0 → ∀ b sched, unlock_shared (b :: sched) s = .returned s) := by
  refine ⟨?_, ?_, ?_⟩
  · intro h sched
    apply unlock_shared_spinning
    rw [h]
    decide
  · intro hne hrange sched
    apply unlock_shared_step
    · simp only [READ_MAX]
      have : 0 < WRITE_MODE := by decide
      omega
    · exact Or.inl rfl
  · intro h0 b sched
    rw [unlock_shared_step b sched s (by rw [h0]; decide) (Or.inr h0)]
    cases s
    simp_all

theorem unlock_shared_spins_on_writer_state_witness :
    (⟨4294967295, true⟩ : shared_spinlock).atomic_lock = WRITE_MODE ∧
      unlock_shared [false, false, false] ⟨4294967295, true⟩ =
        .spinning ⟨4294967295, true⟩ ∧
      (⟨7, false⟩ : shared_spinlock).atomic_lock ≠ WRITE_MODE ∧
      unlock_shared [false] ⟨7, false⟩ = .returned ⟨7 - 1, false⟩ :=
  ⟨by decide,
    (unlock_shared_spins_on_writer_state ⟨4294967295, true⟩).1 (by decide)
      [false, false, false],
    by decide,
    (unlock_shared_spins_on_writer_state ⟨7, false⟩).2.1 (by decide) (by decide) []⟩

end shared_spinlock

end spl

namespace spl

namespace tsqueue

variable {α : Type}

/-! ### C18 -/

theorem run_accounting [element α] (calls : List (schedule × call α)) (q₀ : tsqueue α)
    (hwf : q₀.wf) (hun : q₀.unlocked) (hfair : ∀ c ∈ calls, c.1.fair)
    (honly : push_pop_only calls = true) :
    ∃ q outs, run calls q₀ = .returned (q, outs) ∧ q.wf ∧
      List.Perm (q₀.elements ++ pushed calls) (outs.reduceOption ++ q.elements) := by
  induction calls generalizing q₀ with
  | nil => exact ⟨q₀, [], rfl, hwf, by simp [pushed]⟩
  | cons c rest ih =>
    obtain ⟨g, c⟩ := c
    have hg : g.fair := hfair (g, c) (List.mem_cons_self _ _)
    have hfair' : ∀ c' ∈ rest, c'.1.fair := fun c' hc' => hfair c' (List.mem_cons_of_mem _ hc')
    cases c with
    | push v =>
      obtain ⟨q₁, hpush, hwf₁, hun₁, hel₁⟩ := push_elements g q₀ v hwf hun hg
      obtain ⟨q, outs, hrun, hwfq, hperm⟩ := ih q₁ hwf₁ hun₁ hfair' honly
      refine ⟨q, outs, ?_, hwfq, ?_⟩
      · simp [run, apply, hpush, hrun]
      · rw [hel₁] at hperm
        simpa [pushed] using hperm
    | pop out =>
      by_cases hz : q₀.storage_size = 0
      · have hpop := pop_empty_spec g q₀ out hun hg hz
        obtain ⟨q, outs, hrun, hwfq, hperm⟩ :=
          ih { q₀ with spinlock := ⟨0, false⟩ } hwf rfl hfair' honly
        refine ⟨q, none :: outs, ?_, hwfq, ?_⟩
        · simp [run, apply, hpop, hrun]
        · simpa [pushed, List.reduceOption_cons_of_none] using hperm
      · obtain ⟨q₁, x, hpop, hwf₁, hun₁, hel₁⟩ :=
          pop_elements g q₀ out hwf hun hg (Nat.pos_of_ne_zero hz)
        obtain ⟨q, outs, hrun, hwfq, hperm⟩ := ih q₁ hwf₁ hun₁ hfair' honly
        refine ⟨q, some x :: outs, ?_, hwfq, ?_⟩
        · simp [run, apply, hpop, hrun]
        · rw [hel₁]
          simp only [pushed, List.reduceOption_cons_of_some, List.append_assoc,
            List.singleton_append, List.cons_append]
          exact List.perm_middle.trans (List.Perm.cons x hperm)
    | clear => simp [push_pop_only] at honly

/-- C18: element accounting over serialized operations. Every finite sequence of `push` and
`pop` operations on the initially empty container, in any order and each run atomically
under the exclusive lock (fair schedules), runs to completion; the final size is the number
of pushes minus the number of pops that returned a value, and the multiset of pushed values
is the multiset of values returned by pops plus the multiset of values still in the container. -/
theorem pushes_are_popped_once_or_remain [element α] (calls : List (schedule × call α))
    (hfair : ∀ c ∈ calls, c.1.fair) (honly : push_pop_only calls = true) :
    ∃ q outs, run calls (init : tsqueue α) = .returned (q, outs) ∧
      outs.reduceOption.length ≤ (pushed calls).length ∧
      q.storage_size = (pushed calls).length - outs.reduceOption.length ∧
      (↑(pushed calls) : Multiset α) = ↑outs.reduceOption + ↑q.elements := by
  obtain ⟨q, outs, hrun, hwfq, hperm⟩ :=
    run_accounting calls (init : tsqueue α) ⟨rfl, le_refl _, rfl⟩ rfl hfair honly
  have hinit : (init : tsqueue α).elements = [] := rfl
  rw [hinit, List.nil_append] at hperm
  have hlen := hperm.length_eq
  rw [List.length_append, length_elements q hwfq] at hlen
  refine ⟨q, outs, hrun, by omega, by omega, ?_⟩
  rw [Multiset.coe_add, Multiset.coe_eq_coe]
  exact hperm

theorem pushes_are_popped_once_or_remain_witness :
    (∀ c ∈ [((⟨[false], [false]⟩ : schedule), call.pop none), (⟨[false], [false]⟩, call.push 4),
        (⟨[true, false], [false]⟩, call.push 5), (⟨[false], [true, false]⟩, call.pop none),
        (⟨[false], [false]⟩, call.push 6)], c.1.fair) ∧
      run [((⟨[false], [false]⟩ : schedule), call.pop none), (⟨[false], [false]⟩, call.push 4),
          (⟨[true, false], [false]⟩, call.push 5), (⟨[false], [true, false]⟩, call.pop none),
          (⟨[false], [false]⟩, call.push 6)] (init : tsqueue Nat) =
        .returned (⟨⟨0, false⟩, [some 4, some 6], 2, 2⟩, [none, some 5]) ∧
      ∃ q outs, run [((⟨[false], [false]⟩ : schedule), call.pop none),
            (⟨[false], [false]⟩, call.push 4), (⟨[true, false], [false]⟩, call.push 5),
            (⟨[false], [true, false]⟩, call.pop none), (⟨[false], [false]⟩, call.push 6)]
            (init : tsqueue Nat) = .returned (q, outs) ∧
        outs.reduceOption.length ≤ ([4, 5, 6] : List Nat).length ∧
        q.storage_size = ([4, 5, 6] : List Nat).length - outs.reduceOption.length ∧
        (↑([4, 5, 6] : List Nat) : Multiset Nat) = ↑outs.reduceOption + ↑q.elements :=
  ⟨by decide, by decide,
    pushes_are_popped_once_or_remain
      [((⟨[false], [false]⟩ : schedule), call.pop none), (⟨[false], [false]⟩, call.push 4),
        (⟨[true, false], [false]⟩, call.push 5), (⟨[false], [true, false]⟩, call.pop none),
        (⟨[false], [false]⟩, call.push 6)] (by decide) (by decide)⟩

end tsqueue

end spl

namespace spl

namespace shared_spinlock

/-! ### C19 -/

/-- Replacing one entry of a list changes a count by that entry's share. -/
theorem countP_set_add (f : pc → Bool) (l : List pc) (i : Nat) (p p' : pc)
    (h : l[i]? = some p) :
    (if f p = true then 1 else 0) ≤ l.countP f ∧
      (l.set i p').countP f =
        l.countP f - (if f p = true then 1 else 0) + (if f p' = true then 1 else 0) := by
  induction l generalizing i with
  | nil => simp at h
  | cons x xs ih =>
    cases i with
    | zero =>
      simp only [List.getElem?_cons_zero, Option.some.injEq] at h
      subst h
      simp only [List.set_cons_zero, List.countP_cons]
      constructor
      · split_ifs <;> omega
      · split_ifs <;> omega
    | succ i =>
      simp only [List.getElem?_cons_succ] at h
      obtain ⟨h1, h2⟩ := ih i h
      simp only [List.set_cons_succ, List.countP_cons, h2]
      constructor
      · split_ifs at h1 ⊢ <;> omega
      · split_ifs at h1 ⊢ <;> omega

/-- A step of one thread keeps the agreement between the counter and the holders, and what
the thread has loaded for a release stays consistent with its hold. -/
theorem advance_agrees (o : op) (spurious : Bool) (l l' : shared_spinlock) (p p' : pc)
    (E S : Nat) (h : advance o spurious l p = some (l', p')) (hok : p.ok)
    (hE : (if p.exclusive = true then 1 else 0) ≤ E)
    (hS : (if p.shared = true then 1 else 0) ≤ S)
    (hmain : world.agrees l.atomic_lock E S) :
    p'.ok ∧
      world.agrees l'.atomic_lock
        (E - (if p.exclusive = true then 1 else 0) + (if p'.exclusive = true then 1 else 0))
        (S - (if p.shared = true then 1 else 0) + (if p'.shared = true then 1 else 0)) := by
  have hW : WRITE_MODE = 4294967295 := by decide
  have hR : READ_MAX = 4294967294 := by decide
  unfold world.agrees at hmain ⊢
  rw [hW, hR] at hmain
  rw [hW, hR]
  cases p with
  | idle =>
    cases o <;> simp [advance] at h <;>
      (obtain ⟨rfl, rfl⟩ := h
       simp only [pc.ok, pc.exclusive, pc.shared, Bool.false_eq_true, if_false, if_true,
         and_true, true_and, hW, ne_eq] at hok hE hS ⊢
       omega)
  | holds_exclusive =>
    cases o <;> simp [advance] at h
    obtain ⟨rfl, rfl⟩ := h
    simp only [pc.ok, pc.exclusive, pc.shared, Bool.false_eq_true, if_false, if_true,
      and_true, true_and, hW, ne_eq] at hok hE hS ⊢
    omega
  | holds_shared =>
    cases o <;> simp [advance] at h
    obtain ⟨rfl, rfl⟩ := h
    simp only [pc.ok, pc.exclusive, pc.shared, Bool.false_eq_true, if_false, if_true,
      and_true, true_and, hW, ne_eq] at hok hE hS ⊢
    omega
  | try_lock_load =>
    simp [advance, test_and_set, clear] at h
    obtain ⟨rfl, rfl⟩ := h
    simp only [pc.ok, pc.exclusive, pc.shared, Bool.false_eq_true, if_false, if_true,
      and_true, true_and, hW, ne_eq] at hok hE hS ⊢
    omega
  | try_lock_cas was =>
    simp only [advance, compare_exchange_weak, compare_exchange_strong, test, hW, hR] at h
    split_ifs at h <;> simp at h <;>
      (obtain ⟨rfl, rfl⟩ := h
       simp only [pc.ok, pc.exclusive, pc.shared, Bool.false_eq_true, if_false, if_true,
         and_true, true_and, hW, ne_eq] at hok hE hS ⊢
       omega)
  | try_lock_shared_load =>
    simp [advance, test_and_set, clear] at h
    obtain ⟨rfl, rfl⟩ := h
    simp only [pc.ok, pc.exclusive, pc.shared, Bool.false_eq_true, if_false, if_true,
      and_true, true_and, hW, ne_eq] at hok hE hS ⊢
    omega
  | try_lock_shared_test was =>
    simp only [advance, compare_exchange_weak, compare_exchange_strong, test, hW, hR] at h
    split_ifs at h <;> simp at h <;>
      (obtain ⟨rfl, rfl⟩ := h
       simp only [pc.ok, pc.exclusive, pc.shared, Bool.false_eq_true, if_false, if_true,
         and_true, true_and, hW, ne_eq] at hok hE hS ⊢
       omega)
  | try_lock_shared_cas was =>
    simp only [advance, compare_exchange_weak, compare_exchange_strong, test, hW, hR] at h
    split_ifs at h <;> simp at h <;>
      (obtain ⟨rfl, rfl⟩ := h
       simp only [pc.ok, pc.exclusive, pc.shared, Bool.false_eq_true, if_false, if_true,
         and_true, true_and, hW, ne_eq] at hok hE hS ⊢
       omega)
  | lock_shared_load =>
    simp [advance, test_and_set, clear] at h
    obtain ⟨rfl, rfl⟩ := h
    simp only [pc.ok, pc.exclusive, pc.shared, Bool.false_eq_true, if_false, if_true,
      and_true, true_and, hW, ne_eq] at hok hE hS ⊢
    omega
  | lock_shared_test was =>
    simp only [advance, compare_exchange_weak, compare_exchange_strong, test, hW, hR] at h
    split_ifs at h <;> simp at h <;>
      (obtain ⟨rfl, rfl⟩ := h
       simp only [pc.ok, pc.exclusive, pc.shared, Bool.false_eq_true, if_false, if_true,
         and_true, true_and, hW, ne_eq] at hok hE hS ⊢
       omega)
  | lock_shared_cas was =>
    simp only [advance, compare_exchange_weak, compare_exchange_strong, test, hW, hR] at h
    split_ifs at h <;> simp at h <;>
      (obtain ⟨rfl, rfl⟩ := h
       simp only [pc.ok, pc.exclusive, pc.shared, Bool.false_eq_true, if_false, if_true,
         and_true, true_and, hW, ne_eq] at hok hE hS ⊢
       omega)
  | unlock_shared_load =>
    simp [advance, test_and_set, clear] at h
    obtain ⟨rfl, rfl⟩ := h
    simp only [pc.ok, pc.exclusive, pc.shared, Bool.false_eq_true, if_false, if_true,
      and_true, true_and, hW, ne_eq] at hok hE hS ⊢
    omega
  | unlock_shared_cas was =>
    simp only [advance, compare_exchange_weak, compare_exchange_strong, test, hW, hR] at h
    split_ifs at h <;> simp at h <;>
      (obtain ⟨rfl, rfl⟩ := h
       simp only [pc.ok, pc.exclusive, pc.shared, Bool.false_eq_true, if_false, if_true,
         and_true, true_and, hW, ne_eq] at hok hE hS ⊢
       omega)
  | lock_set =>
    simp [advance, test_and_set, clear] at h
    obtain ⟨rfl, rfl⟩ := h
    simp only [pc.ok, pc.exclusive, pc.shared, Bool.false_eq_true, if_false, if_true,
      and_true, true_and, hW, ne_eq] at hok hE hS ⊢
    omega
  | lock_load =>
    simp [advance, test_and_set, clear] at h
    obtain ⟨rfl, rfl⟩ := h
    simp only [pc.ok, pc.exclusive, pc.shared, Bool.false_eq_true, if_false, if_true,
      and_true, true_and, hW, ne_eq] at hok hE hS ⊢
    omega
  | lock_cas was =>
    simp only [advance, compare_exchange_weak, compare_exchange_strong, test, hW, hR] at h
    split_ifs at h <;> simp at h <;>
      (obtain ⟨rfl, rfl⟩ := h
       simp only [pc.ok, pc.exclusive, pc.shared, Bool.false_eq_true, if_false, if_true,
         and_true, true_and, hW, ne_eq] at hok hE hS ⊢
       omega)
  | unlock_clear =>
    simp [advance, test_and_set, clear] at h
    obtain ⟨rfl, rfl⟩ := h
    simp only [pc.ok, pc.exclusive, pc.shared, Bool.false_eq_true, if_false, if_true,
      and_true, true_and, hW, ne_eq] at hok hE hS ⊢
    omega
  | unlock_load =>
    simp [advance, test_and_set, clear] at h
    obtain ⟨rfl, rfl⟩ := h
    simp only [pc.ok, pc.exclusive, pc.shared, Bool.false_eq_true, if_false, if_true,
      and_true, true_and, hW, ne_eq] at hok hE hS ⊢
    omega
  | unlock_cas was =>
    simp only [advance, compare_exchange_weak, compare_exchange_strong, test, hW, hR] at h
    split_ifs at h <;> simp at h <;>
      (obtain ⟨rfl, rfl⟩ := h
       simp only [pc.ok, pc.exclusive, pc.shared, Bool.false_eq_true, if_false, if_true,
         and_true, true_and, hW, ne_eq] at hok hE hS ⊢
       omega)

theorem step_consistent (w w' : world) (e : event) (h : w.step e = some w')
    (hinv : w.consistent) : w'.consistent := by
  unfold world.step at h
  split at h
  · cases h
  · next p hp =>
    split at h
    · cases h
    · next l' p' hadv =>
      simp only [Option.some.injEq] at h
      subst h
      obtain ⟨hagree, hok⟩ := hinv
      obtain ⟨hE, hE'⟩ := countP_set_add pc.exclusive w.threads e.thread p p' hp
      obtain ⟨hS, hS'⟩ := countP_set_add pc.shared w.threads e.thread p p' hp
      have hmem : p ∈ w.threads := List.mem_iff_getElem?.2 ⟨e.thread, hp⟩
      obtain ⟨hok', hagree'⟩ :=
        advance_agrees e.start e.spurious w.lock l' p p' _ _ hadv (hok p hmem) hE hS hagree
      refine ⟨?_, ?_⟩
      · show world.agrees l'.atomic_lock ((w.threads.set e.thread p').countP pc.exclusive)
          ((w.threads.set e.thread p').countP pc.shared)
        rw [hE', hS']
        exact hagree'
      · intro q hq
        rcases List.mem_or_eq_of_mem_set hq with hq' | rfl
        · exact hok q hq'
        · exact hok'

theorem interleave_consistent (events : List event) (w w' : world)
    (h : world.interleave events w = some w') (hinv : w.consistent) : w'.consistent := by
  induction events generalizing w with
  | nil =>
    simp only [world.interleave, Option.some.injEq] at h
    rw [← h]
    exact hinv
  | cons e rest ih =>
    simp only [world.interleave] at h
    split at h
    · cases h
    · next w₁ hstep => exact ih w₁ h (step_consistent w w₁ e hstep hinv)

theorem initial_consistent (n : Nat) : (world.initial n).consistent := by
  have hE : ∀ k, (List.replicate k pc.idle).countP pc.exclusive = 0 := by
    intro k
    induction k with
    | zero => rfl
    | succ k ih => simp [List.replicate_succ, List.countP_cons, ih, pc.exclusive]
  have hS : ∀ k, (List.replicate k pc.idle).countP pc.shared = 0 := by
    intro k
    induction k with
    | zero => rfl
    | succ k ih => simp [List.replicate_succ, List.countP_cons, ih, pc.shared]
  refine ⟨?_, ?_⟩
  · left
    refine ⟨hE n, ?_, ?_⟩
    · show 0 = (List.replicate n pc.idle).countP pc.shared
      rw [hS n]
    · show (List.replicate n pc.idle).countP pc.shared ≤ READ_MAX
      rw [hS n]
      exact Nat.zero_le _
  · intro p hp
    have : p = pc.idle := List.eq_of_mem_replicate hp
    subst this
    trivial

theorem two_le_countP (f : pc → Bool) (l : List pc) (i j : Nat) (p q x : pc) (hij : i ≠ j)
    (hi : l[i]? = some p) (hj : l[j]? = some q) (hp : f p = true) (hq : f q = true)
    (hx : f x = false) : 2 ≤ l.countP f := by
  obtain ⟨h1, h2⟩ := countP_set_add f l i p x hi
  have hj' : (l.set i x)[j]? = some q := by
    rw [List.getElem?_set, if_neg hij]
    exact hj
  obtain ⟨h3, -⟩ := countP_set_add f (l.set i x) j q x hj'
  rw [h2] at h3
  simp only [hp, hq, hx, if_true, Bool.false_eq_true, if_false] at h1 h3
  omega

/-- C19: mutual exclusion under concurrency. In every state that an interleaving of the atomic
steps of any number of threads reaches from the unlocked lock, each thread pairing a
successful acquisition (`lock`/`try_lock`, or `lock_shared`/`try_lock_shared`) with the
matching release, at most one thread holds the lock exclusively, and when a thread holds it
exclusively no other thread holds it, exclusively or shared. The counter is MAX when a
thread holds the lock exclusively and the number of shared holders otherwise. -/
theorem mutual_exclusion (n : Nat) (events : List event) (w : world)
    (h : world.interleave events (world.initial n) = some w) :
    w.exclusive_holders ≤ 1 ∧ (w.exclusive_holders = 1 → w.shared_holders = 0) ∧
      (∀ (i j : Nat) (p q : pc), i ≠ j → w.threads[i]? = some p → w.threads[j]? = some q →
        p.exclusive = true → q.exclusive = false ∧ q.shared = false) ∧
      w.lock.atomic_lock =
        (if w.exclusive_holders = 1 then WRITE_MODE else w.shared_holders) := by
  obtain ⟨hagree, -⟩ := interleave_consistent events _ w h (initial_consistent n)
  have hE1 : w.exclusive_holders ≤ 1 := by
    rcases hagree with ⟨h1, -, -⟩ | ⟨h1, -, -⟩ <;> omega
  have hES : w.exclusive_holders = 1 → w.shared_holders = 0 := by
    intro h1
    rcases hagree with ⟨h2, -, -⟩ | ⟨-, h2, -⟩
    · omega
    · exact h2
  refine ⟨hE1, hES, ?_, ?_⟩
  · intro i j p q hij hi hj hp
    have hpos : 1 ≤ w.exclusive_holders := by
      have := (countP_set_add pc.exclusive w.threads i p pc.idle hi).1
      rw [if_pos hp] at this
      exact this
    constructor
    · by_contra hq
      have hq' : q.exclusive = true := by simpa using hq
      have := two_le_countP pc.exclusive w.threads i j p q pc.idle hij hi hj hp hq' rfl
      have h2 : 2 ≤ w.exclusive_holders := this
      omega
    · by_contra hq
      have hq' : q.shared = true := by simpa using hq
      have := (countP_set_add pc.shared w.threads j q pc.idle hj).1
      rw [if_pos hq'] at this
      have h1 : 1 ≤ w.shared_holders := this
      have := hES (by omega)
      omega
  · rcases hagree with ⟨h1, h2, -⟩ | ⟨h1, -, h3⟩
    · rw [if_neg (by omega)]
      exact h2
    · rw [if_pos h1]
      exact h3

theorem mutual_exclusion_witness :
    world.interleave
        [⟨0, .lock, false⟩, ⟨0, .lock, false⟩, ⟨1, .try_lock_shared, false⟩,
          ⟨1, .try_lock_shared, false⟩, ⟨0, .lock, false⟩, ⟨1, .try_lock_shared, false⟩,
          ⟨0, .lock, true⟩, ⟨2, .try_lock, false⟩, ⟨0, .lock, false⟩, ⟨0, .lock, false⟩,
          ⟨2, .try_lock, false⟩, ⟨2, .try_lock, false⟩, ⟨0, .unlock, false⟩]
        (world.initial 3) =
        some ⟨⟨4294967295, true⟩, [.unlock_clear, .idle, .idle]⟩ ∧
      (⟨⟨4294967295, true⟩, [.unlock_clear, .idle, .idle]⟩ : world).exclusive_holders ≤ 1 ∧
      ((⟨⟨4294967295, true⟩, [.unlock_clear, .idle, .idle]⟩ : world).exclusive_holders = 1 →
        (⟨⟨4294967295, true⟩, [.unlock_clear, .idle, .idle]⟩ : world).shared_holders = 0) :=
  ⟨by decide,
    (mutual_exclusion 3
      [⟨0, .lock, false⟩, ⟨0, .lock, false⟩, ⟨1, .try_lock_shared, false⟩,
        ⟨1, .try_lock_shared, false⟩, ⟨0, .lock, false⟩, ⟨1, .try_lock_shared, false⟩,
        ⟨0, .lock, true⟩, ⟨2, .try_lock, false⟩, ⟨0, .lock, false⟩, ⟨0, .lock, false⟩,
        ⟨2, .try_lock, false⟩, ⟨2, .try_lock, false⟩, ⟨0, .unlock, false⟩]
      ⟨⟨4294967295, true⟩, [.unlock_clear, .idle, .idle]⟩ (by decide)).1,
    (mutual_exclusion 3
      [⟨0, .lock, false⟩, ⟨0, .lock, false⟩, ⟨1, .try_lock_shared, false⟩,
        ⟨1, .try_lock_shared, false⟩, ⟨0, .lock, false⟩, ⟨1, .try_lock_shared, false⟩,
        ⟨0, .lock, true⟩, ⟨2, .try_lock, false⟩, ⟨0, .lock, false⟩, ⟨0, .lock, false⟩,
        ⟨2, .try_lock, false⟩, ⟨2, .try_lock, false⟩, ⟨0, .unlock, false⟩]
      ⟨⟨4294967295, true⟩, [.unlock_clear, .idle, .idle]⟩ (by decide)).2.1⟩

end shared_spinlock

end spl

namespace spl

namespace shared_spinlock

/-! ### C10 -/

/-- Only the `test_and_set` of `lock()` and the `clear` of `unlock()` write the flag. -/
theorem advance_write_pending (o : op) (spurious : Bool) (l l' : shared_spinlock) (p p' : pc)
    (h : advance o spurious l p = some (l', p')) :
    (p = .lock_set → l'.write_pending = true) ∧
      (p ≠ .lock_set → p ≠ .unlock_clear → l'.write_pending = l.write_pending) := by
  cases p with
  | idle =>
    cases o <;> simp [advance] at h <;>
      (obtain ⟨rfl, rfl⟩ := h
       simp)
  | holds_exclusive =>
    cases o <;> simp [advance] at h
    obtain ⟨rfl, rfl⟩ := h
    simp
  | holds_shared =>
    cases o <;> simp [advance] at h
    obtain ⟨rfl, rfl⟩ := h
    simp
  | lock_set =>
    simp [advance, test_and_set] at h
    obtain ⟨rfl, rfl⟩ := h
    simp
  | unlock_clear => simp
  | try_lock_load =>
    simp [advance] at h
    obtain ⟨rfl, rfl⟩ := h
    simp
  | try_lock_shared_load =>
    simp [advance] at h
    obtain ⟨rfl, rfl⟩ := h
    simp
  | lock_shared_load =>
    simp [advance] at h
    obtain ⟨rfl, rfl⟩ := h
    simp
  | unlock_shared_load =>
    simp [advance] at h
    obtain ⟨rfl, rfl⟩ := h
    simp
  | lock_load =>
    simp [advance] at h
    obtain ⟨rfl, rfl⟩ := h
    simp
  | unlock_load =>
    simp [advance] at h
    obtain ⟨rfl, rfl⟩ := h
    simp
  | try_lock_cas was =>
    simp only [advance, compare_exchange_weak, compare_exchange_strong, test] at h
    split_ifs at h <;> simp at h <;>
      (obtain ⟨rfl, rfl⟩ := h
       simp)
  | try_lock_shared_test was =>
    simp only [advance, compare_exchange_weak, compare_exchange_strong, test] at h
    split_ifs at h <;> simp at h <;>
      (obtain ⟨rfl, rfl⟩ := h
       simp)
  | try_lock_shared_cas was =>
    simp only [advance, compare_exchange_weak, compare_exchange_strong, test] at h
    split_ifs at h <;> simp at h <;>
      (obtain ⟨rfl, rfl⟩ := h
       simp)
  | lock_shared_test was =>
    simp only [advance, compare_exchange_weak, compare_exchange_strong, test] at h
    split_ifs at h <;> simp at h <;>
      (obtain ⟨rfl, rfl⟩ := h
       simp)
  | lock_shared_cas was =>
    simp only [advance, compare_exchange_weak, compare_exchange_strong, test] at h
    split_ifs at h <;> simp at h <;>
      (obtain ⟨rfl, rfl⟩ := h
       simp)
  | unlock_shared_cas was =>
    simp only [advance, compare_exchange_weak, compare_exchange_strong, test] at h
    split_ifs at h <;> simp at h <;>
      (obtain ⟨rfl, rfl⟩ := h
       simp)
  | lock_cas was =>
    simp only [advance, compare_exchange_weak, compare_exchange_strong, test] at h
    split_ifs at h <;> simp at h <;>
      (obtain ⟨rfl, rfl⟩ := h
       simp)
  | unlock_cas was =>
    simp only [advance, compare_exchange_weak, compare_exchange_strong, test] at h
    split_ifs at h <;> simp at h <;>
      (obtain ⟨rfl, rfl⟩ := h
       simp)

/-- How a step moves a thread between the program positions of a writer. -/
theorem advance_position (o : op) (spurious : Bool) (l l' : shared_spinlock) (p p' : pc)
    (h : advance o spurious l p = some (l', p')) :
    (p'.writer = true → p = .lock_set ∨ p.writer = true ∨ p.trying = true) ∧
      (p.writer = true → p ≠ .unlock_clear → p'.writer = true) ∧
      (p = .lock_set → p'.writer = true) ∧
      (p = .unlock_clear → p'.writer = false) ∧
      (p'.trying = true → p.trying = true ∨ (p = .idle ∧ o = .try_lock)) := by
  cases p with
  | idle =>
    cases o <;> simp [advance] at h <;>
      (obtain ⟨rfl, rfl⟩ := h
       simp [pc.writer, pc.trying])
  | holds_exclusive =>
    cases o <;> simp [advance] at h
    obtain ⟨rfl, rfl⟩ := h
    simp [pc.writer, pc.trying]
  | holds_shared =>
    cases o <;> simp [advance] at h
    obtain ⟨rfl, rfl⟩ := h
    simp [pc.writer, pc.trying]
  | try_lock_load =>
    simp [advance, test_and_set, clear] at h
    obtain ⟨rfl, rfl⟩ := h
    simp [pc.writer, pc.trying]
  | try_lock_cas was =>
    simp only [advance, compare_exchange_weak, compare_exchange_strong, test] at h
    split_ifs at h <;> simp at h <;>
      (obtain ⟨rfl, rfl⟩ := h
       simp [pc.writer, pc.trying])
  | try_lock_shared_load =>
    simp [advance, test_and_set, clear] at h
    obtain ⟨rfl, rfl⟩ := h
    simp [pc.writer, pc.trying]
  | try_lock_shared_test was =>
    simp only [advance, compare_exchange_weak, compare_exchange_strong, test] at h
    split_ifs at h <;> simp at h <;>
      (obtain ⟨rfl, rfl⟩ := h
       simp [pc.writer, pc.trying])
  | try_lock_shared_cas was =>
    simp only [advance, compare_exchange_weak, compare_exchange_strong, test] at h
    split_ifs at h <;> simp at h <;>
      (obtain ⟨rfl, rfl⟩ := h
       simp [pc.writer, pc.trying])
  | lock_shared_load =>
    simp [advance, test_and_set, clear] at h
    obtain ⟨rfl, rfl⟩ := h
    simp [pc.writer, pc.trying]
  | lock_shared_test was =>
    simp only [advance, compare_exchange_weak, compare_exchange_strong, test] at h
    split_ifs at h <;> simp at h <;>
      (obtain ⟨rfl, rfl⟩ := h
       simp [pc.writer, pc.trying])
  | lock_shared_cas was =>
    simp only [advance, compare_exchange_weak, compare_exchange_strong, test] at h
    split_ifs at h <;> simp at h <;>
      (obtain ⟨rfl, rfl⟩ := h
       simp [pc.writer, pc.trying])
  | unlock_shared_load =>
    simp [advance, test_and_set, clear] at h
    obtain ⟨rfl, rfl⟩ := h
    simp [pc.writer, pc.trying]
  | unlock_shared_cas was =>
    simp only [advance, compare_exchange_weak, compare_exchange_strong, test] at h
    split_ifs at h <;> simp at h <;>
      (obtain ⟨rfl, rfl⟩ := h
       simp [pc.writer, pc.trying])
  | lock_set =>
    simp [advance, test_and_set, clear] at h
    obtain ⟨rfl, rfl⟩ := h
    simp [pc.writer, pc.trying]
  | lock_load =>
    simp [advance, test_and_set, clear] at h
    obtain ⟨rfl, rfl⟩ := h
    simp [pc.writer, pc.trying]
  | lock_cas was =>
    simp only [advance, compare_exchange_weak, compare_exchange_strong, test] at h
    split_ifs at h <;> simp at h <;>
      (obtain ⟨rfl, rfl⟩ := h
       simp [pc.writer, pc.trying])
  | unlock_clear =>
    simp [advance, test_and_set, clear] at h
    obtain ⟨rfl, rfl⟩ := h
    simp [pc.writer, pc.trying]
  | unlock_load =>
    simp [advance, test_and_set, clear] at h
    obtain ⟨rfl, rfl⟩ := h
    simp [pc.writer, pc.trying]
  | unlock_cas was =>
    simp only [advance, compare_exchange_weak, compare_exchange_strong, test] at h
    split_ifs at h <;> simp at h <;>
      (obtain ⟨rfl, rfl⟩ := h
       simp [pc.writer, pc.trying])

theorem announce_lock_set (w : world) (e : event) (a : List Bool)
    (hp : w.threads[e.thread]? = some pc.lock_set) :
    world.announce w e a = a.set e.thread true := by
  simp [world.announce, hp]

theorem announce_unlock_clear (w : world) (e : event) (a : List Bool)
    (hp : w.threads[e.thread]? = some pc.unlock_clear) :
    world.announce w e a = a.map (fun _ => false) := by
  simp [world.announce, hp]

theorem announce_other (w : world) (e : event) (a : List Bool) (p : pc)
    (hp : w.threads[e.thread]? = some p) (h1 : p ≠ .lock_set) (h2 : p ≠ .unlock_clear) :
    world.announce w e a = a := by
  cases p <;> simp [world.announce, hp] at h1 h2 ⊢

theorem writer_cases (q : pc) (h : q.writer = true) : q.waiting = true ∨ q.exclusive = true := by
  cases q <;> simp [pc.writer, pc.waiting, pc.exclusive] at h ⊢

theorem step_intent_kept (w w' : world) (e : event) (a : List Bool)
    (h : w.step e = some w') (hkept : w.intent_kept a) :
    w'.intent_kept (world.announce w e a) := by
  unfold world.step at h
  split at h
  · cases h
  · next p hp =>
    split at h
    · cases h
    · next l' p' hadv =>
      simp only [Option.some.injEq] at h
      subst h
      obtain ⟨hlen, hall⟩ := hkept
      obtain ⟨hset, hkeep⟩ := advance_write_pending e.start e.spurious w.lock l' p p' hadv
      obtain ⟨-, hstay, henter, -, -⟩ := advance_position e.start e.spurious w.lock l' p p' hadv
      have hk : e.thread < w.threads.length := by
        by_contra hge
        rw [List.getElem?_eq_none (by omega)] at hp
        cases hp
      by_cases h1 : p = .lock_set
      · subst h1
        rw [announce_lock_set w e a hp]
        refine ⟨by simp [hlen], ?_⟩
        intro i hi
        refine ⟨hset rfl, ?_⟩
        by_cases hik : e.thread = i
        · subst hik
          exact ⟨p', by simp [hk], henter rfl⟩
        · rw [List.getElem?_set, if_neg hik] at hi
          obtain ⟨-, q, hq, hw⟩ := hall i hi
          exact ⟨q, by simp [List.getElem?_set, hik, hq], hw⟩
      · by_cases h2 : p = .unlock_clear
        · subst h2
          rw [announce_unlock_clear w e a hp]
          refine ⟨by simp [hlen], ?_⟩
          intro i hi
          rw [List.getElem?_map] at hi
          cases hai : a[i]? with
          | none => simp [hai] at hi
          | some b => simp [hai] at hi
        · rw [announce_other w e a p hp h1 h2]
          refine ⟨by simp [hlen], ?_⟩
          intro i hi
          obtain ⟨hflag, q, hq, hw⟩ := hall i hi
          refine ⟨by rw [hkeep h1 h2]; exact hflag, ?_⟩
          by_cases hik : e.thread = i
          · subst hik
            rw [hp] at hq
            cases hq
            exact ⟨p', by simp [hk], hstay hw h2⟩
          · exact ⟨q, by simp [List.getElem?_set, hik, hq], hw⟩

theorem step_intent_complete (w w' : world) (e : event) (a : List Bool)
    (h : w.step e = some w') (hcons : w.consistent) (hkept : w.intent_kept a)
    (hcomp : w.intent_complete a) (hund : world.undisturbed_step w e = true) :
    w'.intent_complete (world.announce w e a) := by
  unfold world.step at h
  split at h
  · cases h
  · next p hp =>
    split at h
    · cases h
    · next l' p' hadv =>
      simp only [Option.some.injEq] at h
      subst h
      obtain ⟨hlen, -⟩ := hkept
      obtain ⟨hK1, hK2⟩ := hcomp
      obtain ⟨hfrom, -, -, hleave, htry⟩ :=
        advance_position e.start e.spurious w.lock l' p p' hadv
      have hk : e.thread < w.threads.length := by
        by_contra hge
        rw [List.getElem?_eq_none (by omega)] at hp
        cases hp
      have hpmem : p ∈ w.threads := List.mem_iff_getElem?.2 ⟨e.thread, hp⟩
      refine ⟨?_, ?_⟩
      · intro i q hq hw
        have hq' : (w.threads.set e.thread p')[i]? = some q := hq
        by_cases hik : e.thread = i
        · subst hik
          rw [List.getElem?_set, if_pos rfl, if_pos hk] at hq'
          cases hq'
          by_cases h1 : p = .lock_set
          · subst h1
            rw [announce_lock_set w e a hp, List.getElem?_set, if_pos rfl, if_pos (by omega)]
          · by_cases h2 : p = .unlock_clear
            · rw [hleave h2] at hw
              cases hw
            · rw [announce_other w e a p hp h1 h2]
              rcases hfrom hw with h3 | h3 | h3
              · exact absurd h3 h1
              · exact hK1 e.thread p hp h3
              · rw [hK2 p hpmem] at h3
                cases h3
        · rw [List.getElem?_set, if_neg hik] at hq'
          by_cases h1 : p = .lock_set
          · subst h1
            rw [announce_lock_set w e a hp, List.getElem?_set, if_neg hik]
            exact hK1 i q hq' hw
          · by_cases h2 : p = .unlock_clear
            · subst h2
              exfalso
              rcases writer_cases q hw with hwait | hex
              · simp only [world.undisturbed_step, hp, List.all_eq_true] at hund
                have := hund q (List.mem_iff_getElem?.2 ⟨i, hq'⟩)
                simp [hwait] at this
              · have h2le := two_le_countP pc.exclusive w.threads e.thread i pc.unlock_clear q
                  pc.idle hik hp hq' rfl hex rfl
                have hE : w.exclusive_holders ≤ 1 := by
                  rcases hcons.1 with ⟨h0, -, -⟩ | ⟨h0, -, -⟩ <;> omega
                have h2le' : 2 ≤ w.exclusive_holders := h2le
                omega
            · rw [announce_other w e a p hp h1 h2]
              exact hK1 i q hq' hw
      · intro q hq
        have hq' : q ∈ w.threads.set e.thread p' := hq
        rcases List.mem_or_eq_of_mem_set hq' with hq'' | rfl
        · exact hK2 q hq''
        · by_contra hne
          have ht : q.trying = true := by simpa using hne
          rcases htry ht with h3 | ⟨h3, h4⟩
          · rw [hK2 p hpmem] at h3
            cases h3
          · subst h3
            simp [world.undisturbed_step, hp, h4] at hund

theorem exclusive_cases (p : pc) (h : p.exclusive = true) :
    p.writer = true ∨ p = .unlock_load ∨ ∃ was, p = .unlock_cas was := by
  cases p <;> simp [pc.exclusive, pc.writer] at h ⊢

theorem initial_intent (n : Nat) :
    (world.initial n).intent_kept (List.replicate n false) ∧
      (world.initial n).intent_complete (List.replicate n false) := by
  refine ⟨⟨by simp [world.initial], ?_⟩, ?_, ?_⟩
  · intro i hi
    rw [List.getElem?_replicate] at hi
    split_ifs at hi
    simp at hi
  · intro i p hp hw
    have hmem : p ∈ List.replicate n pc.idle := List.mem_iff_getElem?.2 ⟨i, hp⟩
    rw [List.eq_of_mem_replicate hmem] at hw
    cases hw
  · intro p hp
    have hmem : p ∈ List.replicate n pc.idle := hp
    rw [List.eq_of_mem_replicate hmem]
    rfl

theorem interleave_announced_spec (events : List event) (w w' : world) (a a' : List Bool)
    (h : world.interleave_announced events (w, a) = some (w', a')) (hcons : w.consistent)
    (hkept : w.intent_kept a) :
    world.interleave events w = some w' ∧ w'.consistent ∧ w'.intent_kept a' ∧
      (w.intent_complete a → world.undisturbed events w = true → w'.intent_complete a') := by
  induction events generalizing w a with
  | nil =>
    simp only [world.interleave_announced, Option.some.injEq, Prod.mk.injEq] at h
    obtain ⟨rfl, rfl⟩ := h
    exact ⟨rfl, hcons, hkept, fun hc _ => hc⟩
  | cons e rest ih =>
    simp only [world.interleave_announced] at h
    split at h
    · cases h
    · next w₁ hstep =>
      obtain ⟨h1, h2, h3, h4⟩ := ih w₁ (world.announce w e a) h
        (step_consistent w w₁ e hstep hcons) (step_intent_kept w w₁ e a hstep hkept)
      refine ⟨?_, h2, h3, ?_⟩
      · simp only [world.interleave, hstep]
        exact h1
      · intro hcomp hund
        simp only [world.undisturbed, hstep, Bool.and_eq_true] at hund
        exact h4 (step_intent_complete w w₁ e a hstep hcons hkept hcomp hund.1) hund.2

/-- C10, as stated, fails. A `try_lock` on the initial state (counter 0, intent clear) succeeds
and leaves the lock exclusively held by its caller, counter = MAX, with the writer-intent
flag clear. With two writers that both use `lock()`: the second calls `lock()` while the
first holds the lock, the `unlock()` of the first clears the flag, and the second acquires,
counter = MAX with the flag clear; every release is made by the holder. And inside the
holder's own `unlock()` the flag is already clear while the counter is still MAX. -/
theorem exclusive_hold_without_intent :
    (exec_held [(op.try_lock, [])] (⟨0, false⟩, ⟨0, 0, false⟩) =
        some (⟨4294967295, false⟩, ⟨1, 0, true⟩) ∧
      (⟨4294967295, false⟩ : shared_spinlock).atomic_lock = WRITE_MODE ∧
      (⟨4294967295, false⟩ : shared_spinlock).write_pending = false) ∧
      world.interleave
        [⟨0, .lock, false⟩, ⟨0, .lock, false⟩, ⟨0, .lock, false⟩, ⟨0, .lock, false⟩,
          ⟨1, .lock, false⟩, ⟨1, .lock, false⟩,
          ⟨0, .unlock, false⟩, ⟨0, .unlock, false⟩, ⟨0, .unlock, false⟩, ⟨0, .unlock, false⟩,
          ⟨1, .lock, false⟩, ⟨1, .lock, false⟩]
        (world.initial 2) = some ⟨⟨4294967295, false⟩, [.idle, .holds_exclusive]⟩ ∧
      world.interleave
        [⟨0, .lock, false⟩, ⟨0, .lock, false⟩, ⟨0, .lock, false⟩, ⟨0, .lock, false⟩,
          ⟨0, .unlock, false⟩, ⟨0, .unlock, false⟩]
        (world.initial 1) = some ⟨⟨4294967295, false⟩, [.unlock_load]⟩ := by
  decide

/-- C10, amended: writer-intent stays set from the `test_and_set` of a `lock()` call until the
next `unlock()` clears it. In every state reachable from the initial state (counter 0,
intent clear) by an interleaving of the atomic steps of `try_lock`, `lock`, `unlock`,
`try_lock_shared`, `lock_shared` and `unlock_shared` calls of any number of threads, releases
made only by holders: the flag is set whenever some thread's `lock()` has run its
`test_and_set` and no `unlock()` has cleared the flag since; counter = MAX implies that a
thread holds the lock exclusively and that the flag is set unless that thread's entry is
`false`, that is, unless it acquired by `try_lock` or an `unlock()` has cleared the flag since
its `lock()` set it. In an interleaving without `try_lock` in which no `unlock()` clears the
flag while another thread is spinning in `lock()`, counter = MAX implies that the flag is
set or that the holder is inside its own `unlock()` past the `clear`. `try_lock` leaves the
flag untouched, as a whole and in each of its steps. -/
theorem intent_set_until_unlock_clears (n : Nat) (events : List event) (w : world)
    (a : List Bool)
    (h : world.interleave_announced events (world.initial n, List.replicate n false) =
      some (w, a)) :
    world.interleave events (world.initial n) = some w ∧
      (∀ i : Nat, a[i]? = some true →
        w.lock.write_pending = true ∧ ∃ p : pc, w.threads[i]? = some p ∧ p.writer = true) ∧
      (w.lock.atomic_lock = WRITE_MODE →
        ∃ (i : Nat) (p : pc), w.threads[i]? = some p ∧ p.exclusive = true ∧
          (w.lock.write_pending = true ∨ a[i]? = some false)) ∧
      (world.undisturbed events (world.initial n) = true → w.lock.atomic_lock = WRITE_MODE →
        w.lock.write_pending = true ∨
          ∃ p ∈ w.threads, p = pc.unlock_load ∨ ∃ was, p = pc.unlock_cas was) ∧
      (∀ s : shared_spinlock, s.try_lock.2.write_pending = s.write_pending) ∧
      (∀ (o : op) (spurious : Bool) (l l' : shared_spinlock) (p p' : pc), p.trying = true →
        advance o spurious l p = some (l', p') → l'.write_pending = l.write_pending) := by
  obtain ⟨hkept0, hcomp0⟩ := initial_intent n
  obtain ⟨hrun, hcons, hkept, hcomp⟩ :=
    interleave_announced_spec events _ w _ a h (initial_consistent n) hkept0
  have hholder : w.lock.atomic_lock = WRITE_MODE →
      ∃ (i : Nat) (p : pc), w.threads[i]? = some p ∧ p.exclusive = true := by
    intro hmax
    have hpos : 0 < w.threads.countP pc.exclusive := by
      rcases hcons.1 with ⟨-, h2, h3⟩ | ⟨h1, -, -⟩
      · exfalso
        rw [hmax] at h2
        rw [← h2] at h3
        revert h3
        decide
      · have : w.exclusive_holders = 1 := h1
        unfold world.exclusive_holders at this
        omega
    obtain ⟨p, hmem, hp⟩ := List.countP_pos_iff.1 hpos
    obtain ⟨i, hi⟩ := List.mem_iff_getElem?.1 hmem
    exact ⟨i, p, hi, hp⟩
  refine ⟨hrun, hkept.2, ?_, ?_, ?_, ?_⟩
  · intro hmax
    obtain ⟨i, p, hi, hp⟩ := hholder hmax
    refine ⟨i, p, hi, hp, ?_⟩
    have hlt : i < a.length := by
      rw [hkept.1]
      by_contra hge
      rw [List.getElem?_eq_none (by omega)] at hi
      cases hi
    rw [List.getElem?_eq_getElem hlt]
    cases hb : a[i] with
    | false => exact Or.inr rfl
    | true =>
      left
      have : a[i]? = some true := by rw [List.getElem?_eq_getElem hlt, hb]
      exact (hkept.2 i this).1
  · intro hund hmax
    obtain ⟨i, p, hi, hp⟩ := hholder hmax
    rcases exclusive_cases p hp with hw | hrel
    · left
      exact (hkept.2 i ((hcomp hcomp0 hund).1 i p hi hw)).1
    · right
      exact ⟨p, List.mem_iff_getElem?.2 ⟨i, hi⟩, hrel⟩
  · intro s
    rcases try_lock_cases s with ⟨-, h'⟩ | ⟨-, h'⟩ <;> rw [h']
  · intro o spurious l l' p p' hp hadv
    refine (advance_write_pending o spurious l l' p p' hadv).2 ?_ ?_
    · intro h1
      rw [h1] at hp
      cases hp
    · intro h1
      rw [h1] at hp
      cases hp

theorem intent_set_until_unlock_clears_witness :
    world.interleave_announced
        [⟨1, .lock_shared, false⟩, ⟨1, .lock_shared, false⟩, ⟨0, .lock, false⟩,
          ⟨0, .lock, false⟩, ⟨1, .lock_shared, false⟩, ⟨0, .lock, false⟩, ⟨0, .lock, true⟩,
          ⟨1, .lock_shared, false⟩, ⟨0, .lock, false⟩, ⟨2, .try_lock_shared, false⟩,
          ⟨0, .lock, false⟩, ⟨2, .try_lock_shared, false⟩]
        (world.initial 3, List.replicate 3 false) =
        some (⟨⟨4294967295, true⟩,
          [.holds_exclusive, .lock_shared_test 0, .try_lock_shared_test 4294967295]⟩,
          [true, false, false]) ∧
      world.undisturbed
        [⟨1, .lock_shared, false⟩, ⟨1, .lock_shared, false⟩, ⟨0, .lock, false⟩,
          ⟨0, .lock, false⟩, ⟨1, .lock_shared, false⟩, ⟨0, .lock, false⟩, ⟨0, .lock, true⟩,
          ⟨1, .lock_shared, false⟩, ⟨0, .lock, false⟩, ⟨2, .try_lock_shared, false⟩,
          ⟨0, .lock, false⟩, ⟨2, .try_lock_shared, false⟩]
        (world.initial 3) = true ∧
      (⟨4294967295, true⟩ : shared_spinlock).atomic_lock = WRITE_MODE ∧
      (∃ (i : Nat) (p : pc),
        [pc.holds_exclusive, pc.lock_shared_test 0, pc.try_lock_shared_test 4294967295][i]? =
            some p ∧
          p.exclusive = true ∧
          ((⟨4294967295, true⟩ : shared_spinlock).write_pending = true ∨
            [true, false, false][i]? = some false)) ∧
      ((⟨4294967295, true⟩ : shared_spinlock).write_pending = true ∨
        ∃ p ∈ [pc.holds_exclusive, pc.lock_shared_test 0, pc.try_lock_shared_test 4294967295],
          p = pc.unlock_load ∨ ∃ was, p = pc.unlock_cas was) :=
  ⟨by decide, by decide, by decide,
    (intent_set_until_unlock_clears 3
      [⟨1, .lock_shared, false⟩, ⟨1, .lock_shared, false⟩, ⟨0, .lock, false⟩,
        ⟨0, .lock, false⟩, ⟨1, .lock_shared, false⟩, ⟨0, .lock, false⟩, ⟨0, .lock, true⟩,
        ⟨1, .lock_shared, false⟩, ⟨0, .lock, false⟩, ⟨2, .try_lock_shared, false⟩,
        ⟨0, .lock, false⟩, ⟨2, .try_lock_shared, false⟩]
      ⟨⟨4294967295, true⟩,
        [.holds_exclusive, .lock_shared_test 0, .try_lock_shared_test 4294967295]⟩
      [true, false, false] (by decide)).2.2.1 (by decide),
    (intent_set_until_unlock_clears 3
      [⟨1, .lock_shared, false⟩, ⟨1, .lock_shared, false⟩, ⟨0, .lock, false⟩,
        ⟨0, .lock, false⟩, ⟨1, .lock_shared, false⟩, ⟨0, .lock, false⟩, ⟨0, .lock, true⟩,
        ⟨1, .lock_shared, false⟩, ⟨0, .lock, false⟩, ⟨2, .try_lock_shared, false⟩,
        ⟨0, .lock, false⟩, ⟨2, .try_lock_shared, false⟩]
      ⟨⟨4294967295, true⟩,
        [.holds_exclusive, .lock_shared_test 0, .try_lock_shared_test 4294967295]⟩
      [true, false, false] (by decide)).2.2.2.1 (by decide) (by decide)⟩

end shared_spinlock

end spl
